import Mathlib

/-!
Verification of the SudokuSolver board and solver (`SudokuBoard.cpp`,
`SudokuBoard.h`).

The board is a 9×9 Sudoku candidate board: 81 cells × 9 candidate values
= 729 independent boolean flags, stored in the C++ source as 12 unsigned
64-bit words (768 bits, flat bit index `(x + y*9)*9 + (value-1)`).  We
embed the whole 768-bit bitset as a single `Nat`, read with
`Nat.testBit` and written by flipping single bits, which matches the
word-packed C++ representation bit for bit.

Listener callbacks (`std::function` observers that the solver invokes
but whose results it never reads) are embedded as state transformers
over an abstract observer-state type `σ`, threaded through the
computation exactly at the program points where the C++ code invokes
them.
-/

set_option maxRecDepth 100000

namespace SudokuSolver

/-- `enum SimplificationCause` from `SudokuBoard.h`. -/
inductive SimplificationCause where
  | noValuePossible
  | eliminationByRow
  | eliminationByColumn
  | eliminationByChunk
  | valueSureByRow
  | valueSureByColumn
  | valueSureByChunk
deriving DecidableEq

/-- `GPos`: global position of a cell, `x`, `y` in `[0,8]` for real board
cells (the C++ type is a pair of unsigned chars; coordinates are never
mutated or subject to arithmetic that could wrap, so `Nat` is exact). -/
structure GPos where
  x : Nat
  y : Nat
deriving DecidableEq

/-- The candidate bitset of a whole board: the 12 `ulli` words of
`SudokuBoard::bitset` seen as one natural number (word `i` holds bits
`64*i .. 64*i+63`). -/
abbrev Board := Nat

/-- `SudokuBoard::gpos2bitsetIndex`: base bit index of a cell. -/
def gpos2bitsetIndex (p : GPos) : Nat := (p.x + p.y * 9) * 9

/-- Flat bit index of (cell, value): `gpos2bitsetIndex + (value - 1)`,
as computed in `isPossibleAt` / `setPossibleAt`. -/
def bitIndexAt (p : GPos) (value : Nat) : Nat := gpos2bitsetIndex p + (value - 1)

/-- `SudokuBoard::SudokuBoard()`: all 12 words set to `~0ULL`. -/
def defaultBoard : Board := 2 ^ 768 - 1

/-- Read one candidate flag (the bit-block arithmetic of the C++ code,
`bitset[bit/64] & (1 << bit%64)`, collapses to `testBit` on the
concatenated words).  This is the body of `isPossibleAt` after its
range check; the solver only ever calls it with `value ∈ [1,9]`. -/
def isPoss (b : Board) (p : GPos) (value : Nat) : Bool :=
  b.testBit (bitIndexAt p value)

/-- Write one candidate flag; returns the new board and whether the bit
actually changed.  Mirrors `setPossibleAt` after its range check: if the
bit already has the requested polarity nothing changes and `false` is
returned, otherwise the single bit is flipped (`|= mask` resp.
`&= ~mask`) and `true` is returned. -/
def setBitRaw (b : Board) (i : Nat) (isOn : Bool) : Board × Bool :=
  if b.testBit i == isOn then (b, false) else (b ^^^ (1 <<< i), true)

/-- Unchecked candidate write (board part only). -/
def setPoss (b : Board) (p : GPos) (value : Nat) (isOn : Bool) : Board :=
  (setBitRaw b (bitIndexAt p value) isOn).1

/-- `SudokuBoard::isPossibleAt`, including the `std::invalid_argument`
throw for `value ∉ [1,9]` (embedded as `Except.error`). -/
def isPossibleAt (b : Board) (p : GPos) (value : Nat) : Except String Bool :=
  if 1 ≤ value ∧ value ≤ 9 then .ok (isPoss b p value)
  else .error "SudokuBoard::isPossibleAt: value out of range."

/-- `SudokuBoard::setPossibleAt`: the range check precedes any mutation,
so on error the returned board is the unchanged input. -/
def setPossibleAt (b : Board) (p : GPos) (value : Nat) (isOn : Bool) :
    Board × Except String Bool :=
  if 1 ≤ value ∧ value ≤ 9 then
    let r := setBitRaw b (bitIndexAt p value) isOn
    (r.1, .ok r.2)
  else (b, .error "SudokuBoard::setPossibleAt: value out of range.")

/-- Board part of `SudokuBoard::makeSureAt`: loop `v = 1..9`; for
`v = value` force the bit on when `force`, else leave it alone; for all
other `v` clear the bit.  All nine `setPossibleAt` calls are made with
the loop variable, hence always in range (see `makeSureAt_eq_core`). -/
def makeSureCore (b : Board) (p : GPos) (value : Nat) (force : Bool) : Board :=
  (List.range' 1 9).foldl
    (fun bd v =>
      if v = value then (if force then setPoss bd p v true else bd)
      else setPoss bd p v false) b

/-- `SudokuBoard::makeSureAt` with the potential `std::invalid_argument`
propagation of its inner `setPossibleAt` calls made explicit. -/
def makeSureAt (b : Board) (p : GPos) (value : Nat) (force : Bool) :
    Board × Except String Unit :=
  (List.range' 1 9).foldl
    (fun acc v =>
      match acc with
      | (bd, .error e) => (bd, .error e)
      | (bd, .ok _) =>
        if v = value then
          if force then
            (let r := setPossibleAt bd p v true; (r.1, r.2.map fun _ => ()))
          else (bd, .ok ())
        else
          (let r := setPossibleAt bd p v false; (r.1, r.2.map fun _ => ())))
    (b, .ok ())

/-- `SudokuBoard::getCellInfoAt`: one scan over `v = 1..9` counting set
flags and remembering the last set value; result is
`(count == 1 ? onlyValue : 0, count)`. -/
def getCellInfoAt (b : Board) (p : GPos) : Nat × Nat :=
  let r := (List.range' 1 9).foldl
    (fun (acc : Nat × Nat) v => if isPoss b p v then (v, acc.2 + 1) else acc)
    (0, 0)
  (if r.2 = 1 then r.1 else 0, r.2)

/-- `SudokuBoard::getPossiblesCountAt`. -/
def countAt (b : Board) (p : GPos) : Nat := (getCellInfoAt b p).2

/-- `SudokuBoard::getOnlyPossibleValue`. -/
def onlyValueAt (b : Board) (p : GPos) : Nat := (getCellInfoAt b p).1

/-- `SudokuBoard::getCandiatesAt`: values `1..9` with the flag set, in
ascending order. -/
def getCandiatesAt (b : Board) (p : GPos) : List Nat :=
  (List.range' 1 9).filter (fun v => isPoss b p v)

/-- The 81 cells in the row-major visit order of every scan in the
source (`y` outer, `x` inner). -/
def allCells : List GPos := (List.range 81).map (fun i => ⟨i % 9, i / 9⟩)

/-- `SudokuBoard::isSolved`: every cell has exactly one candidate. -/
def isSolved (b : Board) : Bool := allCells.all (fun p => countAt b p == 1)

/-- `SudokuBoard::hasContradiction`: some cell has zero candidates. -/
def hasContradiction (b : Board) : Bool := allCells.any (fun p => countAt b p == 0)

/-- The nine cells of the 3×3 chunk containing `p`, in the visit order
of the C++ double loop (`by` outer, `bx` inner). -/
def chunkCells (p : GPos) : List GPos :=
  (List.range 9).map (fun k => ⟨p.x / 3 * 3 + k % 3, p.y / 3 * 3 + k / 3⟩)

/-- Chunk index `chunkX + 3 * chunkY` passed to chunk events. -/
def chunkIdx (p : GPos) : Nat := p.x / 3 + 3 * (p.y / 3)

/-- The scan loop of `SudokuBoard::findMRVCell`: early `return {gp, 0}`
on a zero-candidate cell, otherwise keep the first cell whose candidate
count is `> 1` and strictly below the best so far (initial best 10). -/
def findMRVGo (b : Board) : List GPos → GPos → Nat → Option (GPos × Nat)
  | [], bestPos, bestCount =>
    if bestCount = 10 then none else some (bestPos, bestCount)
  | p :: rest, bestPos, bestCount =>
    let cnt := countAt b p
    if cnt = 0 then some (p, 0)
    else if 1 < cnt ∧ cnt < bestCount then findMRVGo b rest p cnt
    else findMRVGo b rest bestPos bestCount

/-- `SudokuBoard::findMRVCell`; `none` embeds the
`throw new std::runtime_error("Unexpected state in findMRVCell")`. -/
def findMRVCell (b : Board) : Option (GPos × Nat) :=
  findMRVGo b allCells ⟨0, 0⟩ 10

/-- The two callbacks taken by `simplify` / `simplifyToTheEnd`, as state
transformers over an observer state `σ`.  `onPass` receives
`(index, eliminated, eliminatedSum)`; `onElim` receives
`(cause, cell, value, by)`. -/
structure SimpListeners (σ : Type) where
  onPass : Nat → Nat → Nat → σ → σ
  onElim : SimplificationCause → GPos → Nat → Nat → σ → σ

/-- One peer visit of the Naked Single elimination loops: if `v` is
possible at `peer`, clear it, bump the elimination counter and emit the
event (`SudokuBoard.cpp` lines 245-276). -/
def elimPeerStep {σ : Type} (L : SimpListeners σ) (cause : SimplificationCause)
    (v bv : Nat) (peer : GPos) (acc : Board × Nat × σ) : Board × Nat × σ :=
  if isPoss acc.1 peer v then
    (setPoss acc.1 peer v false, acc.2.1 + 1, L.onElim cause peer v bv acc.2.2)
  else acc

/-- Naked Single peer elimination for a determined cell `p` with only
value `v0`: row peers, then column peers, then chunk peers, each in scan
order, skipping `p` itself. -/
def nakedElim {σ : Type} (L : SimpListeners σ) (p : GPos) (v0 : Nat)
    (acc : Board × Nat × σ) : Board × Nat × σ :=
  let rowAcc := (List.range 9).foldl
    (fun a cx => if cx = p.x then a
      else elimPeerStep L .eliminationByRow v0 p.y ⟨cx, p.y⟩ a) acc
  let colAcc := (List.range 9).foldl
    (fun a cy => if cy = p.y then a
      else elimPeerStep L .eliminationByColumn v0 p.x ⟨p.x, cy⟩ a) rowAcc
  (chunkCells p).foldl
    (fun a q => if q.x = p.x ∧ q.y = p.y then a
      else elimPeerStep L .eliminationByChunk v0 (chunkIdx p) q a) colAcc

/-- Hidden Single checks for one still-possible value `v` at cell `p`
(`SudokuBoard.cpp` lines 290-342): row, then column, then chunk
uniqueness, each evaluated against the board state current at that
moment; each firing adds `cnt - 1` to the elimination counter — with
`cnt` the count captured at the re-check before the value loop, which
the source never refreshes — emits the event, and commits `v` by a
non-forcing `makeSureAt`. -/
def hiddenSingleValue {σ : Type} (L : SimpListeners σ) (p : GPos) (cnt v : Nat)
    (acc : Board × Nat × σ) : Board × Nat × σ :=
  let (b, e, s) := acc
  if !(isPoss b p v) then (b, e, s) else
  let rowOk := (List.range 9).all fun cx => cx == p.x || !(isPoss b ⟨cx, p.y⟩ v)
  let a1 := if rowOk then
      (makeSureCore b p v false, e + (cnt - 1), L.onElim .valueSureByRow p v p.y s)
    else (b, e, s)
  let colOk := (List.range 9).all fun cy =>
    cy == p.y || !(isPoss a1.1 ⟨p.x, cy⟩ v)
  let a2 := if colOk then
      (makeSureCore a1.1 p v false, a1.2.1 + (cnt - 1),
       L.onElim .valueSureByColumn p v p.x a1.2.2)
    else a1
  let chunkOk := (chunkCells p).all fun q =>
    (q.x == p.x && q.y == p.y) || !(isPoss a2.1 q v)
  if chunkOk then
    (makeSureCore a2.1 p v false, a2.2.1 + (cnt - 1),
     L.onElim .valueSureByChunk p v (chunkIdx p) a2.2.2)
  else a2

/-- Processing of one cell inside a `simplify` pass: contradiction
check, Naked Single elimination, re-check, Hidden Single checks.  The
`Bool` component is false when a `NO_VALUE_POSSIBLE` contradiction
aborts the pass. -/
def simplifyCell {σ : Type} (L : SimpListeners σ) (p : GPos)
    (acc : Board × Nat × σ) : Board × Nat × Bool × σ :=
  let (b, e, s) := acc
  let info := getCellInfoAt b p
  if info.2 = 0 then (b, e, false, L.onElim .noValuePossible p 0 0 s) else
  let a1 := if info.2 = 1 then nakedElim L p info.1 (b, e, s) else (b, e, s)
  let info2 := getCellInfoAt a1.1 p
  if info2.2 = 0 then (a1.1, a1.2.1, false, L.onElim .noValuePossible p 0 0 a1.2.2)
  else if info2.2 = 1 then (a1.1, a1.2.1, true, a1.2.2)
  else
    let a2 := (List.range' 1 9).foldl
      (fun a v => hiddenSingleValue L p info2.2 v a) a1
    (a2.1, a2.2.1, true, a2.2.2)

/-- The cell loop of `simplify`, with the early `return false` on
contradiction. -/
def simplifyCells {σ : Type} (L : SimpListeners σ) :
    List GPos → Board × Nat × σ → Board × Nat × Bool × σ
  | [], (b, e, s) => (b, e, true, s)
  | p :: rest, acc =>
    match simplifyCell L p acc with
    | (b, e, ok, s) => if ok then simplifyCells L rest (b, e, s) else (b, e, false, s)

/-- `SudokuBoard::simplify`: one full pass over all 81 cells, starting
from `eliminations = 0`.  Returns (board, eliminations, ok, observer
state). -/
def simplify {σ : Type} (L : SimpListeners σ) (b : Board) (s : σ) :
    Board × Nat × Bool × σ :=
  simplifyCells L allCells (b, 0, s)

/-- `SudokuBoard::simplifyToTheEnd`, with an explicit pass budget
(`fuel`); the C++ `while (true)` loop needs none, and
`simplifyToTheEnd_term` below shows a budget of 729 passes always
suffices.  Returns `(totalEliminations, ok, board, observer state)`.
On a contradiction pass the partial count is added and the pass
listener invoked; on a zero-elimination pass the loop breaks *before*
the listener call. -/
def simplifyToTheEndFuel {σ : Type} (L : SimpListeners σ) :
    Nat → Nat → Nat → Board → σ → Option (Nat × Bool × Board × σ)
  | 0, _, _, _, _ => none
  | fuel + 1, idx, tot, b, s =>
    match simplify L b s with
    | (b1, elim, ok, s1) =>
      if !ok then some (tot + elim, false, b1, L.onPass idx elim (tot + elim) s1)
      else if elim = 0 then some (tot, true, b1, s1)
      else simplifyToTheEndFuel L fuel (idx + 1) (tot + elim) b1
        (L.onPass idx elim (tot + elim) s1)

/-- `simplifyToTheEnd` with the sufficient pass budget. -/
def simplifyToTheEnd {σ : Type} (L : SimpListeners σ) (b : Board) (s : σ) :
    Option (Nat × Bool × Board × σ) :=
  simplifyToTheEndFuel L 729 0 0 b s

/-- `SudokuBoard::copyData`: the internal bitset as its 12 64-bit words
(word 0 first). -/
def copyWords : Nat → Nat → List Nat
  | 0, _ => []
  | k + 1, b => (b &&& (2 ^ 64 - 1)) :: copyWords k (b >>> 64)

/-- `SudokuBoard::copyData`. -/
def copyData (b : Board) : List Nat := copyWords 12 b

/-- `SudokuBoard::SudokuBoard(std::array<ulli,12>)`: rebuild the board
from its word list. -/
def boardFromData : List Nat → Board
  | [] => 0
  | w :: ws => w + (boardFromData ws) <<< 64

/-- The three solver callbacks of `dfsSolve`, as state transformers:
`onAssign (path, assigned, justAssigned)`,
`onPass (path, index, eliminated, eliminatedSum, isFirst, assigned)`,
`onElim (path, cause, cell, value, by)`.  The 81-entry `assigned` array
is embedded as a bitmask (bit `x + 9*y`). -/
structure DfsListeners (σ : Type) where
  onAssign : List Nat → Nat → GPos → σ → σ
  onPass : List Nat → Nat → Nat → Nat → Bool → Nat → σ → σ
  onElim : List Nat → SimplificationCause → GPos → Nat → Nat → σ → σ

/-- The wrapping lambdas of the recursive `dfsSolve` (lines 39-45):
capture `path`, `isFirst` and `assigned` and forward to the outer
listeners. -/
def wrapListeners {σ : Type} (L : DfsListeners σ) (path : List Nat)
    (isFirst : Bool) (assigned : Nat) : SimpListeners σ :=
  { onPass := fun i e es s => L.onPass path i e es isFirst assigned s
    onElim := fun c q v bv s => L.onElim path c q v bv s }

/-- Mark / unmark a cell in the `assigned` bitmask. -/
def setAssigned (assigned : Nat) (p : GPos) (isOn : Bool) : Nat :=
  (setBitRaw assigned (p.x + 9 * p.y) isOn).1

/-- The candidate loop of the recursive `dfsSolve` (lines 73-91):
snapshot (`copyData`), non-forcing trial assignment, push branch index,
assign event, recurse (through `recurse`, instantiated with the solver
at the next fuel level), and on failure restore the board from the
snapshot (`board = SudokuBoard(history)`) and pop the path.  Returns
`none` when the recursion runs out of fuel. -/
def dfsTry {σ : Type} (L : DfsListeners σ)
    (recurse : Board → List Nat → Nat → σ → Option (Bool × Board × σ))
    (pos : GPos) :
    List Nat → Nat → Board → List Nat → Nat → σ → Option (Bool × Board × σ)
  | [], _, b, _, _, s => some (false, b, s)
  | v :: rest, branchIdx, b, path, assigned, s =>
    let history := copyData b
    let b1 := makeSureCore b pos v false
    let path1 := path ++ [branchIdx]
    let s1 := L.onAssign path1 assigned pos s
    match recurse b1 path1 assigned s1 with
    | none => none
    | some (true, b2, s2) => some (true, b2, s2)
    | some (false, _, s2) =>
      dfsTry L recurse pos rest (branchIdx + 1) (boardFromData history) path assigned s2

/-- The recursive body of `SudokuBoard::dfsSolve` (lines 30-96), with a
fuel bound on recursion depth (the C++ recursion depth is bounded by
the number of undetermined cells).  `none` models fuel exhaustion and
the `throw new std::runtime_error` of `findMRVCell` (unreachable from
real states).  Returns `(solved, board, observer state)`. -/
def dfsCore {σ : Type} (L : DfsListeners σ) :
    Nat → Board → List Nat → Nat → Bool → σ → Option (Bool × Board × σ)
  | 0, _, _, _, _, _ => none
  | fuel + 1, b, path, assigned, isFirst, s =>
    match simplifyToTheEnd (wrapListeners L path isFirst assigned) b s with
    | none => none
    | some (_, ok, b1, s1) =>
      if !ok then some (false, b1, s1)
      else if isSolved b1 then some (true, b1, s1)
      else
        match findMRVCell b1 with
        | none => none
        | some (pos, cnt) =>
          if cnt = 0 then some (false, b1, s1)
          else
            let cands := getCandiatesAt b1 pos
            dfsTry L (fun bb pp aa ss => dfsCore L fuel bb pp aa false ss) pos
              cands 0 b1 path (setAssigned assigned pos true) s1

/-- The public `dfsSolve` entry point (lines 427-435): clear the path,
push the dummy branch index 0, start with `isFirst = true`. -/
def dfsSolve {σ : Type} (L : DfsListeners σ) (fuel : Nat) (b : Board)
    (assigned : Nat) (s : σ) : Option (Bool × Board × σ) :=
  dfsCore L fuel b [0] assigned true s

/-! ### Concrete listener instances and example boards -/

/-- No-op listeners (the empty lambdas of `dfsSolve(path, assigned)`),
at the `simplify` level. -/
def unitSL : SimpListeners Unit :=
  { onPass := fun _ _ _ s => s, onElim := fun _ _ _ _ s => s }

/-- Listener counting how often the pass-summary callback is invoked. -/
def countPassSL : SimpListeners Nat :=
  { onPass := fun _ _ _ s => s + 1, onElim := fun _ _ _ _ s => s }

/-- Listener collecting every pass-summary invocation
`(index, eliminated, eliminatedSum)` in order. -/
def passTraceSL : SimpListeners (List (Nat × Nat × Nat)) :=
  { onPass := fun i e es s => s ++ [(i, e, es)], onElim := fun _ _ _ _ s => s }

/-- No-op listeners at the `dfsSolve` level. -/
def unitDL : DfsListeners Unit :=
  { onAssign := fun _ _ _ s => s
    onPass := fun _ _ _ _ _ _ s => s
    onElim := fun _ _ _ _ _ s => s }

/-- Number of set candidate flags of a board (the 729 cell/value flags;
the 39 unused high bits of the 12-word bitset are not counted). -/
def flagCount (b : Board) : Nat := (List.range 729).countP (fun i => b.testBit i)

/-- Bitwise containment: every flag set in `a` is set in `b`. -/
def SubB (a b : Board) : Prop := ∀ i, a.testBit i = true → b.testBit i = true

/-- The unused high bits (index ≥ 729) agree. -/
def HiEq (a b : Board) : Prop := ∀ i, 729 ≤ i → a.testBit i = b.testBit i

/-- Progress relation of the elimination counter inside one `simplify`
pass: the counter never decreases, the board only loses flags, high
bits are untouched, and the counter increments exactly when the board
actually changed. -/
def Prog (b : Board) (e : Nat) (b' : Board) (e' : Nat) : Prop :=
  e ≤ e' ∧ SubB b' b ∧ HiEq b' b ∧ (e < e' ↔ b' ≠ b)

/-- One forced clue `(4,4) = 5` on an otherwise empty board (the §8
single-clue scenario). -/
def c9Board : Board := makeSureCore defaultBoard ⟨4, 4⟩ 5 true

/-- A board on which a Hidden Single fires twice for the same value in
one value iteration: cell (0,0) holds {1,2}, and value 1 has been
removed from the rest of row 0 and of column 0. -/
def ceBoard : Board :=
  let b0 := defaultBoard
  let b1 := (List.range' 1 8).foldl (fun b x => setPoss b ⟨x, 0⟩ 1 false) b0
  let b2 := (List.range' 1 8).foldl (fun b y => setPoss b ⟨0, y⟩ 1 false) b1
  (List.range' 3 7).foldl (fun b w => setPoss b ⟨0, 0⟩ w false) b2

/-- A board whose cell (5,5) has no candidates at all (used to exhibit
a failing search branch). -/
def emptyCellBoard : Board :=
  (List.range' 1 9).foldl (fun b w => setPoss b ⟨5, 5⟩ w false) defaultBoard

/-- A fully determined (not necessarily Sudoku-valid) board: every cell
holds exactly the single candidate 1, i.e. bit `9*c` is set for each
cell index `c < 81` and nothing else — the geometric sum
`(2^729 - 1) / (2^9 - 1)`. -/
def onesBoard : Board := (2 ^ 729 - 1) / (2 ^ 9 - 1)

/-- Two identical clues in the same row: forcing `(0,0) = 5` and
`(1,0) = 5` (the §8 contradiction-detection scenario). -/
def contraBoard : Board :=
  makeSureCore (makeSureCore defaultBoard ⟨0, 0⟩ 5 true) ⟨1, 0⟩ 5 true

/-- Modelled from the spec (§4.2 `simplifyToTheEnd` and §6
`onSimplifyPass`): the list of pass-summary events
`(passIndex, eliminatedThisPass, totalEliminatedSoFar)` a run starting
from pass index `idx` and running total `tot` is expected to emit — one
event per `simplify` invocation, except that the final fixpoint pass
(zero eliminations) emits none; a contradiction pass emits one with the
partial counts included. -/
def passSummaries : Nat → Nat → Nat → Board → List (Nat × Nat × Nat)
  | 0, _, _, _ => []
  | fuel + 1, idx, tot, b =>
    match simplify unitSL b () with
    | (b1, elim, ok, _) =>
      if !ok then [(idx, elim, tot + elim)]
      else if elim = 0 then []
      else (idx, elim, tot + elim) :: passSummaries fuel (idx + 1) (tot + elim) b1

/-- Forget the observer state of a `(board, eliminations, σ)` result. -/
def dropS3 {σ : Type} (r : Board × Nat × σ) : Board × Nat := (r.1, r.2.1)

/-- Forget the observer state of a `simplify` result. -/
def dropS4 {σ : Type} (r : Board × Nat × Bool × σ) : Board × Nat × Bool :=
  (r.1, r.2.1, r.2.2.1)

/-- Forget the observer state of a `simplifyToTheEnd` result. -/
def dropSE {σ : Type} (r : Option (Nat × Bool × Board × σ)) :
    Option (Nat × Bool × Board) :=
  r.map (fun t => (t.1, t.2.1, t.2.2.1))

/-- Forget the observer state of a `dfsSolve` result. -/
def dropSD {σ : Type} (r : Option (Bool × Board × σ)) : Option (Bool × Board) :=
  r.map (fun t => (t.1, t.2.1))

/-! ### Basic bit-level lemmas -/

theorem testBit_setBitRaw_fst (b : Board) (i j : Nat) (o : Bool) :
    ((setBitRaw b i o).1).testBit j = if j = i then o else b.testBit j := by
  unfold setBitRaw
  by_cases h : b.testBit i = o
  · simp only [h, beq_self_eq_true, if_true]
    by_cases hj : j = i
    · subst hj; simp [h]
    · simp [hj]
  · have hbeq : (b.testBit i == o) = false := by
      cases hbi : b.testBit i <;> cases o <;> simp_all
    simp only [hbeq, Bool.false_eq_true, if_false]
    have h1 : (1 : Nat) <<< i = 2 ^ i := by
      rw [Nat.shiftLeft_eq, Nat.one_mul]
    rw [h1, Nat.testBit_xor, Nat.testBit_two_pow]
    by_cases hj : j = i
    · subst hj
      simp only [if_pos rfl]
      cases hbi : b.testBit j <;> cases o <;> simp_all
    · have : ¬(i = j) := fun hh => hj hh.symm
      simp [hj, this]

theorem setBitRaw_snd_true_iff (b : Board) (i : Nat) (o : Bool) :
    (setBitRaw b i o).2 = true ↔ (setBitRaw b i o).1 ≠ b := by
  unfold setBitRaw
  by_cases h : b.testBit i = o
  · simp [h]
  · have hbeq : (b.testBit i == o) = false := by
      cases hbi : b.testBit i <;> cases o <;> simp_all
    simp only [hbeq, Bool.false_eq_true, if_false, true_iff, ne_eq]
    intro heq
    have := congrArg (fun n => Nat.testBit n i) heq
    simp only at this
    have h1 : (1 : Nat) <<< i = 2 ^ i := by
      rw [Nat.shiftLeft_eq, Nat.one_mul]
    rw [h1, Nat.testBit_xor, Nat.testBit_two_pow] at this
    simp at this

theorem testBit_setPoss (b : Board) (p : GPos) (v j : Nat) (o : Bool) :
    (setPoss b p v o).testBit j =
      if j = bitIndexAt p v then o else b.testBit j := by
  unfold setPoss
  exact testBit_setBitRaw_fst b (bitIndexAt p v) j o

theorem bitIndexAt_inj (p : GPos) {v w : Nat} (hv : 1 ≤ v) (hw : 1 ≤ w) :
    bitIndexAt p v = bitIndexAt p w ↔ v = w := by
  unfold bitIndexAt gpos2bitsetIndex
  omega

theorem bitIndexAt_lt_729 (p : GPos) {v : Nat} (hx : p.x < 9) (hy : p.y < 9)
    (hv1 : 1 ≤ v) (hv9 : v ≤ 9) : bitIndexAt p v < 729 := by
  unfold bitIndexAt gpos2bitsetIndex
  have : p.x + p.y * 9 ≤ 80 := by omega
  omega

/-! ### `makeSureAt` lemmas -/

theorem makeSureCore_foldl_testBit_notMem (p : GPos) (value : Nat) (force : Bool)
    (l : List Nat) (j : Nat) (hj : ∀ v ∈ l, j ≠ bitIndexAt p v) :
    ∀ b : Board,
      (l.foldl (fun bd v => if v = value then (if force then setPoss bd p v true else bd)
        else setPoss bd p v false) b).testBit j = b.testBit j := by
  induction l with
  | nil => intro b; rfl
  | cons a t ih =>
    intro b
    have hja : j ≠ bitIndexAt p a := hj a (by simp)
    have hstep : ((if a = value then (if force then setPoss b p a true else b)
        else setPoss b p a false)).testBit j = b.testBit j := by
      by_cases hav : a = value
      · subst hav
        by_cases hf : force
        · simp [hf, testBit_setPoss, hja]
        · simp [hf]
      · simp [hav, testBit_setPoss, hja]
    rw [List.foldl_cons, ih (fun v hv => hj v (List.mem_cons_of_mem _ hv)), hstep]

theorem makeSureCore_foldl_testBit_mem (p : GPos) (value : Nat) (force : Bool)
    (l : List Nat) (w : Nat) (hw1 : 1 ≤ w) (hl : ∀ v ∈ l, 1 ≤ v)
    (hnd : l.Nodup) (hwl : w ∈ l) :
    ∀ b : Board,
      (l.foldl (fun bd v => if v = value then (if force then setPoss bd p v true else bd)
        else setPoss bd p v false) b).testBit (bitIndexAt p w) =
      if w = value then (if force then true else b.testBit (bitIndexAt p w))
      else false := by
  induction l with
  | nil => cases hwl
  | cons a t ih =>
    intro b
    rcases List.mem_cons.mp hwl with rfl | hwt
    · have hat : w ∉ t := (List.nodup_cons.mp hnd).1
      have hnot : ∀ v ∈ t, bitIndexAt p w ≠ bitIndexAt p v := by
        intro v hv he
        have hv1 : 1 ≤ v := hl v (List.mem_cons_of_mem _ hv)
        exact hat (((bitIndexAt_inj p hw1 hv1).mp he) ▸ hv)
      rw [List.foldl_cons, makeSureCore_foldl_testBit_notMem p value force t _ hnot]
      by_cases hav : w = value
      · by_cases hf : force
        · simp [hav, hf, testBit_setPoss]
        · simp [hav, hf]
      · simp [hav, testBit_setPoss]
    · have ha1 : 1 ≤ a := hl a (by simp)
      have haw : a ≠ w := fun h => (List.nodup_cons.mp hnd).1 (h ▸ hwt)
      have hne : bitIndexAt p w ≠ bitIndexAt p a :=
        fun h => haw (((bitIndexAt_inj p hw1 ha1).mp h).symm)
      have hstepbit : ((if a = value then (if force then setPoss b p a true else b)
          else setPoss b p a false)).testBit (bitIndexAt p w) =
            b.testBit (bitIndexAt p w) := by
        by_cases hav : a = value
        · subst hav
          by_cases hf : force
          · simp [hf, testBit_setPoss, hne]
          · simp [hf]
        · simp [hav, testBit_setPoss, hne]
      rw [List.foldl_cons,
        ih (fun v hv => hl v (List.mem_cons_of_mem _ hv))
          (List.nodup_cons.mp hnd).2 hwt, hstepbit]

theorem isPoss_makeSureCore (b : Board) (p : GPos) (value w : Nat) (force : Bool)
    (hw1 : 1 ≤ w) (hw9 : w ≤ 9) :
    isPoss (makeSureCore b p value force) p w =
      if w = value then (if force then true else isPoss b p w) else false := by
  have hmem : w ∈ List.range' 1 9 :=
    List.mem_range'.mpr ⟨w - 1, by omega, by omega⟩
  exact makeSureCore_foldl_testBit_mem p value force (List.range' 1 9) w hw1
    (by decide) (by decide) hmem b

theorem testBit_makeSureCore_outside (b : Board) (p : GPos) (value : Nat)
    (force : Bool) (j : Nat) (hj : ∀ w, 1 ≤ w → w ≤ 9 → j ≠ bitIndexAt p w) :
    (makeSureCore b p value force).testBit j = b.testBit j := by
  refine makeSureCore_foldl_testBit_notMem p value force (List.range' 1 9) j ?_ b
  intro v hv
  have := List.mem_range'.mp hv
  obtain ⟨i, hi, rfl⟩ := this
  exact hj _ (by omega) (by omega)

theorem makeSureAt_foldl (p : GPos) (value : Nat) (force : Bool) :
    ∀ l : List Nat, (∀ v ∈ l, 1 ≤ v ∧ v ≤ 9) → ∀ b : Board,
      (l.foldl
        (fun acc v =>
          match acc with
          | (bd, .error e) => (bd, .error e)
          | (bd, .ok _) =>
            if v = value then
              if force then
                (let r := setPossibleAt bd p v true; (r.1, r.2.map fun _ => ()))
              else (bd, .ok ())
            else
              (let r := setPossibleAt bd p v false; (r.1, r.2.map fun _ => ())))
        (b, Except.ok ())) =
      (l.foldl
        (fun bd v =>
          if v = value then (if force then setPoss bd p v true else bd)
          else setPoss bd p v false) b, Except.ok ()) := by
  intro l
  induction l with
  | nil => intro _ b; rfl
  | cons a t ih =>
    intro hl b
    have ha := hl a (by simp)
    rw [List.foldl_cons, List.foldl_cons]
    have hstep :
        (match (b, Except.ok ()) with
          | (bd, .error e) => (bd, Except.error e)
          | (bd, .ok _) =>
            if a = value then
              if force then
                (let r := setPossibleAt bd p a true; (r.1, r.2.map fun _ => ()))
              else (bd, Except.ok ())
            else
              (let r := setPossibleAt bd p a false; (r.1, r.2.map fun _ => ()))) =
        ((if a = value then (if force then setPoss b p a true else b)
          else setPoss b p a false), Except.ok ()) := by
      by_cases hav : a = value
      · subst hav
        by_cases hf : force = true
        · simp [hf, setPossibleAt, setPoss, ha, Except.map]
        · simp [hf]
      · simp [hav, setPossibleAt, setPoss, ha, Except.map]
    rw [hstep]
    exact ih (fun v hv => hl v (List.mem_cons_of_mem _ hv)) _

/-- The nine `setPossibleAt` calls inside `makeSureAt` all use the loop
value `v ∈ [1,9]`, so the range check never fires: `makeSureAt` never
raises the out-of-range error, whatever `value` is. -/
theorem makeSureAt_eq_core (b : Board) (p : GPos) (value : Nat) (force : Bool) :
    makeSureAt b p value force = (makeSureCore b p value force, .ok ()) := by
  unfold makeSureAt makeSureCore
  exact makeSureAt_foldl p value force (List.range' 1 9) (by decide) b

/-! ### `getCellInfoAt` lemmas -/

theorem cellInfo_foldl_snd (q : Nat → Bool) (l : List Nat) :
    ∀ a0 n0 : Nat,
      (l.foldl (fun (acc : Nat × Nat) v => if q v then (v, acc.2 + 1) else acc)
        (a0, n0)).2 = n0 + l.countP q := by
  induction l with
  | nil => intro a0 n0; simp
  | cons a t ih =>
    intro a0 n0
    rw [List.foldl_cons, List.countP_cons]
    by_cases h : q a
    · simp only [h, if_true, ih]
      omega
    · simp only [h, if_false, ih]
      simp [h]

theorem countAt_eq_countP (b : Board) (p : GPos) :
    countAt b p = (List.range' 1 9).countP (fun v => isPoss b p v) := by
  unfold countAt getCellInfoAt
  simp only
  rw [cellInfo_foldl_snd]
  simp

theorem cellInfo_foldl_none (q : Nat → Bool) (l : List Nat)
    (hq : ∀ v ∈ l, q v = false) :
    ∀ a0 n0 : Nat,
      (l.foldl (fun (acc : Nat × Nat) v => if q v then (v, acc.2 + 1) else acc)
        (a0, n0)) = (a0, n0) := by
  induction l with
  | nil => intro a0 n0; rfl
  | cons a t ih =>
    intro a0 n0
    rw [List.foldl_cons]
    simp only [hq a (by simp), Bool.false_eq_true, if_false]
    exact ih (fun v hv => hq v (List.mem_cons_of_mem _ hv)) a0 n0

theorem cellInfo_foldl_unique (q : Nat → Bool) (value : Nat) (l : List Nat)
    (hq : ∀ v ∈ l, q v = true ↔ v = value) (hnd : l.Nodup) (hval : value ∈ l) :
    ∀ a0 n0 : Nat,
      (l.foldl (fun (acc : Nat × Nat) v => if q v then (v, acc.2 + 1) else acc)
        (a0, n0)) = (value, n0 + 1) := by
  induction l with
  | nil => cases hval
  | cons a t ih =>
    intro a0 n0
    rcases List.mem_cons.mp hval with rfl | hvt
    · have hqa : q value = true := (hq value (by simp)).mpr rfl
      rw [List.foldl_cons]
      simp only [hqa, if_true]
      have hat : value ∉ t := (List.nodup_cons.mp hnd).1
      refine cellInfo_foldl_none q t ?_ value (n0 + 1)
      intro v hv
      by_cases h : q v = true
      · exact absurd ((hq v (List.mem_cons_of_mem _ hv)).mp h ▸ hv) hat
      · simpa using h
    · have hav : a ≠ value := fun h => (List.nodup_cons.mp hnd).1 (h ▸ hvt)
      have hqa : q a = false := by
        by_cases h : q a = true
        · exact absurd ((hq a (by simp)).mp h) hav
        · simpa using h
      rw [List.foldl_cons]
      simp only [hqa, Bool.false_eq_true, if_false]
      exact ih (fun v hv => hq v (List.mem_cons_of_mem _ hv))
        (List.nodup_cons.mp hnd).2 hvt a0 n0

theorem getCellInfoAt_makeSureCore (b : Board) (p : GPos) (value : Nat)
    (force : Bool) :
    getCellInfoAt (makeSureCore b p value force) p =
      if 1 ≤ value ∧ value ≤ 9 then
        (if force || isPoss b p value then (value, 1) else (0, 0))
      else (0, 0) := by
  by_cases hv : 1 ≤ value ∧ value ≤ 9
  · by_cases hlive : force || isPoss b p value
    · have hfold := cellInfo_foldl_unique
        (isPoss (makeSureCore b p value force) p) value (List.range' 1 9)
        (by
          intro w hw
          obtain ⟨i, hi, rfl⟩ := List.mem_range'.mp hw
          simp only [Nat.one_mul]
          rw [isPoss_makeSureCore b p value (1 + i) force (by omega) (by omega)]
          by_cases heq : 1 + i = value
          · subst heq
            simp only [if_pos rfl, iff_true]
            by_cases hf : force = true
            · simp [hf]
            · rw [Bool.not_eq_true] at hf
              rw [hf] at hlive
              simp only [Bool.false_or] at hlive
              simp [hf, hlive]
          · simp [heq])
        (by decide) (List.mem_range'.mpr ⟨value - 1, by omega, by omega⟩) 0 0
      unfold getCellInfoAt
      simp only [hfold]
      simp [hv, hlive]
    · have hfold := cellInfo_foldl_none
        (isPoss (makeSureCore b p value force) p) (List.range' 1 9)
        (by
          intro w hw
          obtain ⟨i, hi, rfl⟩ := List.mem_range'.mp hw
          simp only [Nat.one_mul]
          rw [isPoss_makeSureCore b p value (1 + i) force (by omega) (by omega)]
          by_cases heq : 1 + i = value
          · subst heq
            simp only [if_pos rfl]
            by_cases hf : force = true
            · rw [hf] at hlive
              simp at hlive
            · rw [Bool.not_eq_true] at hf
              rw [hf] at hlive
              simp only [Bool.false_or, Bool.not_eq_true] at hlive
              simp [hf, hlive]
          · simp [heq]) 0 0
      unfold getCellInfoAt
      simp only [hfold]
      simp [hv, hlive]
  · have hfold := cellInfo_foldl_none
      (isPoss (makeSureCore b p value force) p) (List.range' 1 9)
      (by
        intro w hw
        obtain ⟨i, hi, rfl⟩ := List.mem_range'.mp hw
        simp only [Nat.one_mul]
        rw [isPoss_makeSureCore b p value (1 + i) force (by omega) (by omega)]
        have hne : ¬(1 + i = value) := by omega
        simp [hne]) 0 0
    unfold getCellInfoAt
    simp only [hfold]
    simp [hv]

/-! ### Claim C1: force semantics of `makeSureAt` -/

/-- C1: for every position and every `v ∈ [1,9]`,
`makeSureAt (pos, v, force := true)` raises no error and leaves `pos`
with exactly one candidate, namely `v` (`getCellInfoAt = (v, 1)`, i.e.
`onlyValue = v`, `candidateCount = 1`); with `force := false` it leaves
`onlyValue = v` when `v` was possible beforehand and otherwise leaves
zero candidates, since it clears all other candidates without
re-enabling `v`. -/
theorem c1_makeSureAt_force_semantics (b : Board) (p : GPos) (v : Nat)
    (hv1 : 1 ≤ v) (hv9 : v ≤ 9) :
    ((makeSureAt b p v true).2 = .ok () ∧
      getCellInfoAt (makeSureAt b p v true).1 p = (v, 1)) ∧
    ((makeSureAt b p v false).2 = .ok () ∧
      (isPoss b p v = true → getCellInfoAt (makeSureAt b p v false).1 p = (v, 1)) ∧
      (isPoss b p v = false → countAt (makeSureAt b p v false).1 p = 0)) := by
  rw [makeSureAt_eq_core, makeSureAt_eq_core]
  refine ⟨⟨rfl, ?_⟩, rfl, ?_, ?_⟩
  · rw [getCellInfoAt_makeSureCore]
    simp [hv1, hv9]
  · intro h
    rw [getCellInfoAt_makeSureCore]
    simp [hv1, hv9, h]
  · intro h
    unfold countAt
    rw [getCellInfoAt_makeSureCore]
    simp [hv1, hv9, h]

/-- Witness for C1 at concrete inputs: forcing 5 into a full cell,
non-forcing 5 into a full cell (possible beforehand), and non-forcing 3
into the cell of `c9Board` that only holds 5 (impossible beforehand). -/
theorem c1_makeSureAt_force_semantics_witness :
    getCellInfoAt (makeSureAt defaultBoard ⟨0, 0⟩ 5 true).1 ⟨0, 0⟩ = (5, 1) ∧
    getCellInfoAt (makeSureAt defaultBoard ⟨0, 0⟩ 5 false).1 ⟨0, 0⟩ = (5, 1) ∧
    countAt (makeSureAt c9Board ⟨4, 4⟩ 3 false).1 ⟨4, 4⟩ = 0 := by
  have h1 := c1_makeSureAt_force_semantics defaultBoard ⟨0, 0⟩ 5 (by decide) (by decide)
  have h2 := c1_makeSureAt_force_semantics c9Board ⟨4, 4⟩ 3 (by decide) (by decide)
  exact ⟨h1.1.2, h1.2.2.1 (by decide), h2.2.2.2 (by decide)⟩

/-! ### Claim C6: out-of-range guard of `isPossibleAt` / `setPossibleAt` -/

/-- C6: `isPossibleAt` and `setPossibleAt` raise the out-of-range error
iff `v ∉ [1,9]`; on error the board is unchanged (the check precedes
any mutation), and for `v ∈ [1,9]` `setPossibleAt` returns `true`
exactly when the flag's state actually changed. -/
theorem c6_out_of_range_guard (b : Board) (p : GPos) (v : Nat) (o : Bool) :
    ((∃ m, isPossibleAt b p v = .error m) ↔ ¬(1 ≤ v ∧ v ≤ 9)) ∧
    ((∃ m, (setPossibleAt b p v o).2 = .error m) ↔ ¬(1 ≤ v ∧ v ≤ 9)) ∧
    (¬(1 ≤ v ∧ v ≤ 9) → (setPossibleAt b p v o).1 = b) ∧
    (1 ≤ v ∧ v ≤ 9 →
      ((setPossibleAt b p v o).2 = .ok true ↔ (setPossibleAt b p v o).1 ≠ b)) := by
  refine ⟨?_, ?_, ?_, ?_⟩
  · unfold isPossibleAt
    by_cases h : 1 ≤ v ∧ v ≤ 9 <;> simp [h]
  · unfold setPossibleAt
    by_cases h : 1 ≤ v ∧ v ≤ 9 <;> simp [h]
  · intro h
    unfold setPossibleAt
    simp [h]
  · intro h
    unfold setPossibleAt
    simp only [h, and_self, if_true]
    simpa using setBitRaw_snd_true_iff b (bitIndexAt p v) o

/-- Witness for C6: errors at `v = 0` and `v = 10` with the board
untouched, and the changed-flag equivalence at `v = 5`. -/
theorem c6_out_of_range_guard_witness :
    (∃ m, isPossibleAt defaultBoard ⟨0, 0⟩ 0 = .error m) ∧
    (∃ m, (setPossibleAt defaultBoard ⟨0, 0⟩ 10 true).2 = .error m) ∧
    (setPossibleAt defaultBoard ⟨0, 0⟩ 10 true).1 = defaultBoard ∧
    ((setPossibleAt defaultBoard ⟨0, 0⟩ 5 false).2 = .ok true ↔
      (setPossibleAt defaultBoard ⟨0, 0⟩ 5 false).1 ≠ defaultBoard) :=
  ⟨(c6_out_of_range_guard defaultBoard ⟨0, 0⟩ 0 true).1.mpr (by decide),
    (c6_out_of_range_guard defaultBoard ⟨0, 0⟩ 10 true).2.1.mpr (by decide),
    (c6_out_of_range_guard defaultBoard ⟨0, 0⟩ 10 true).2.2.1 (by decide),
    (c6_out_of_range_guard defaultBoard ⟨0, 0⟩ 5 false).2.2.2 (by decide)⟩

/-! ### Claim C10: `makeSureAt` performs no range check of its own -/

/-- C10: calling `makeSureAt` with `v ∉ [1,9]` (e.g. 0 or 10) raises no
out-of-range error, forcing or not; instead all nine candidate flags of
the cell are cleared, leaving `candidateCount = 0` — unlike
`isPossibleAt` and `setPossibleAt`, which reject such `v` before
mutating. -/
theorem c10_makeSureAt_out_of_range (b : Board) (p : GPos) (v : Nat)
    (force : Bool) (hv : v < 1 ∨ 9 < v) :
    (makeSureAt b p v force).2 = .ok () ∧
    countAt (makeSureAt b p v force).1 p = 0 ∧
    (∀ w, 1 ≤ w → w ≤ 9 → isPoss (makeSureAt b p v force).1 p w = false) ∧
    (∃ m, isPossibleAt b p v = .error m) ∧
    (∃ m, (setPossibleAt b p v force).2 = .error m) := by
  rw [makeSureAt_eq_core]
  have hnv : ¬(1 ≤ v ∧ v ≤ 9) := by omega
  refine ⟨rfl, ?_, ?_, ?_, ?_⟩
  · unfold countAt
    rw [getCellInfoAt_makeSureCore]
    simp [hnv]
  · intro w hw1 hw9
    rw [isPoss_makeSureCore b p v w force hw1 hw9]
    have hne : ¬(w = v) := by omega
    simp [hne]
  · unfold isPossibleAt
    simp [hnv]
  · unfold setPossibleAt
    simp [hnv]

/-- Witness for C10 at `v = 0` (forcing) and `v = 10` (non-forcing). -/
theorem c10_makeSureAt_out_of_range_witness :
    countAt (makeSureAt defaultBoard ⟨1, 2⟩ 0 true).1 ⟨1, 2⟩ = 0 ∧
    countAt (makeSureAt defaultBoard ⟨1, 2⟩ 10 false).1 ⟨1, 2⟩ = 0 ∧
    (∃ m, isPossibleAt defaultBoard ⟨1, 2⟩ 0 = .error m) :=
  ⟨(c10_makeSureAt_out_of_range defaultBoard ⟨1, 2⟩ 0 true (Or.inl (by decide))).2.1,
    (c10_makeSureAt_out_of_range defaultBoard ⟨1, 2⟩ 10 false (Or.inr (by decide))).2.1,
    (c10_makeSureAt_out_of_range defaultBoard ⟨1, 2⟩ 0 true (Or.inl (by decide))).2.2.2.1⟩

/-! ### Claim C3: rollback exactness in `dfsSolve` -/

theorem boardFromData_copyWords (k : Nat) :
    ∀ b : Nat, b < 2 ^ (64 * k) → boardFromData (copyWords k b) = b := by
  induction k with
  | zero =>
    intro b hb
    have hb0 : b = 0 := by
      simpa using hb
    subst hb0
    rfl
  | succ k ih =>
    intro b hb
    show boardFromData ((b &&& (2 ^ 64 - 1)) :: copyWords k (b >>> 64)) = b
    have hlt : b >>> 64 < 2 ^ (64 * k) := by
      rw [Nat.shiftRight_eq_div_pow]
      apply Nat.div_lt_of_lt_mul
      calc b < 2 ^ (64 * (k + 1)) := hb
        _ = 2 ^ 64 * 2 ^ (64 * k) := by rw [← Nat.pow_add]; ring_nf
    show (b &&& (2 ^ 64 - 1)) + (boardFromData (copyWords k (b >>> 64))) <<< 64 = b
    rw [ih (b >>> 64) hlt, Nat.and_pow_two_sub_one_eq_mod,
      Nat.shiftRight_eq_div_pow, Nat.shiftLeft_eq]
    rw [Nat.mul_comm (b / 2 ^ 64) (2 ^ 64)]
    exact Nat.mod_add_div b (2 ^ 64)

/-- C3: in the candidate loop of `dfsSolve`, after a candidate branch
fails, the board the loop continues with for the remaining candidates
is bit-identical to the `copyData` snapshot taken immediately before
that branch's trial assignment — all deduction side effects of the
recursion are undone by the full-state restore
(`board = SudokuBoard(history)`). -/
theorem c3_rollback_exact {σ : Type} (L : DfsListeners σ)
    (recurse : Board → List Nat → Nat → σ → Option (Bool × Board × σ))
    (pos : GPos) (b : Board) (hb : b < 2 ^ 768) (v : Nat) (rest : List Nat)
    (branchIdx : Nat) (path : List Nat) (assigned : Nat) (s : σ)
    (bf : Board) (sf : σ)
    (hfail : recurse (makeSureCore b pos v false) (path ++ [branchIdx]) assigned
        (L.onAssign (path ++ [branchIdx]) assigned pos s) = some (false, bf, sf)) :
    boardFromData (copyData b) = b ∧
    dfsTry L recurse pos (v :: rest) branchIdx b path assigned s =
      dfsTry L recurse pos rest (branchIdx + 1) b path assigned sf := by
  have hrt : boardFromData (copyData b) = b := by
    refine boardFromData_copyWords 12 b ?_
    exact hb
  refine ⟨hrt, ?_⟩
  conv_lhs => rw [dfsTry]
  rw [hfail, hrt]

/-- Witness for C3: on a board whose cell (5,5) is empty, the trial
assignment `(0,0) := 1` fails inside one recursion step, and the loop
continues on the exact pre-trial board. -/
theorem c3_rollback_exact_witness :
    emptyCellBoard < 2 ^ 768 ∧
    dfsTry unitDL (fun bb pp aa ss => dfsCore unitDL 1 bb pp aa false ss) ⟨0, 0⟩
        [1] 0 emptyCellBoard [0] 0 () =
      dfsTry unitDL (fun bb pp aa ss => dfsCore unitDL 1 bb pp aa false ss) ⟨0, 0⟩
        [] 1 emptyCellBoard [0] 0 () := by
  have hOk : (dfsCore unitDL 1 (makeSureCore emptyCellBoard ⟨0, 0⟩ 1 false)
      [0, 0] 0 false ()).map (fun r => r.1) = some false := by decide
  refine ⟨by decide, ?_⟩
  cases hrun : dfsCore unitDL 1 (makeSureCore emptyCellBoard ⟨0, 0⟩ 1 false)
      [0, 0] 0 false () with
  | none =>
    rw [hrun] at hOk
    exact Option.noConfusion hOk
  | some r =>
    obtain ⟨ok, bf, sf⟩ := r
    rw [hrun] at hOk
    simp only [Option.map_some'] at hOk
    have hok : ok = false := by simpa using hOk
    subst hok
    exact (c3_rollback_exact unitDL
      (fun bb pp aa ss => dfsCore unitDL 1 bb pp aa false ss) ⟨0, 0⟩
      emptyCellBoard (by decide) 1 [] 0 [0] 0 () bf sf hrun).2

/-! ### Claim C9: single-clue scenario -/

/-- C9: starting from the default board (every cell holds all nine
candidates), after the single forcing assignment
`makeSureAt((4,4), 5, force := true)` the first `simplify()` pass
returns Ok and reports exactly 20 eliminations (8 row peers + 8 column
peers + 4 chunk peers not already in the row or column). -/
theorem c9_single_clue_twenty_eliminations :
    (simplify unitSL (makeSureAt defaultBoard ⟨4, 4⟩ 5 true).1 ()).2.2.1 = true ∧
    (simplify unitSL (makeSureAt defaultBoard ⟨4, 4⟩ 5 true).1 ()).2.1 = 20 := by
  constructor
  · decide
  · decide

/-! ### Claim C4: hidden-single elimination counting -/

/-- C4 counterexample: on `ceBoard` the Hidden Single for value 1 at
cell (0,0) fires by row and then again by column within the same value
iteration; the pass reports 2 eliminations although only 1 candidate
flag is actually cleared — refuting the claim that a later firing for
an already-forced cell contributes 0 and that the reported count equals
the flags actually cleared. -/
theorem c4_stale_count_counterexample :
    (simplify unitSL ceBoard ()).2.2.1 = true ∧
    (simplify unitSL ceBoard ()).2.1 = 2 ∧
    flagCount ceBoard - flagCount (simplify unitSL ceBoard ()).1 = 1 := by
  refine ⟨by decide, by decide, by decide⟩

/-- C4 amended: every hidden-single firing for a cell adds the *stale*
`cnt - 1` to the pass's elimination count, where `cnt` is the cell's
candidate count captured at the re-check before the value loop — not
the count at the moment of the firing.  Hence the counter grows by
`k * (cnt - 1)` with `k` the number of houses that fired (up to 3),
while the firings clear at most `cnt - 1` flags at the cell and touch
no other cell, so with `k ≥ 2` the reported count exceeds the flags
actually cleared. -/
theorem c4_hidden_single_stale_count {σ : Type} (L : SimpListeners σ) (p : GPos)
    (cnt v : Nat) (b : Board) (e : Nat) (s : σ)
    (hv1 : 1 ≤ v) (hv9 : v ≤ 9)
    (hcnt : countAt b p = cnt) (h2 : 2 ≤ cnt) :
    (∃ k, k ≤ 3 ∧
      (hiddenSingleValue L p cnt v (b, e, s)).2.1 = e + k * (cnt - 1)) ∧
    cnt - countAt (hiddenSingleValue L p cnt v (b, e, s)).1 p ≤ cnt - 1 ∧
    (∀ j, (∀ w, 1 ≤ w → w ≤ 9 → j ≠ bitIndexAt p w) →
      ((hiddenSingleValue L p cnt v (b, e, s)).1).testBit j = b.testBit j) := by
  have hcount : ∀ x : Board, isPoss x p v = true →
      countAt (makeSureCore x p v false) p = 1 ∧
      isPoss (makeSureCore x p v false) p v = true := by
    intro x hx
    constructor
    · unfold countAt
      rw [getCellInfoAt_makeSureCore]
      simp [hv1, hv9, hx]
    · rw [isPoss_makeSureCore x p v v false hv1 hv9]
      simp [hx]
  have houtside : ∀ (x : Board) (j : Nat),
      (∀ w, 1 ≤ w → w ≤ 9 → j ≠ bitIndexAt p w) →
      (makeSureCore x p v false).testBit j = x.testBit j :=
    fun x j hj => testBit_makeSureCore_outside x p v false j hj
  unfold hiddenSingleValue
  by_cases hpv : isPoss b p v = true
  · simp only [hpv, Bool.not_true, Bool.false_eq_true, if_false]
    have hc1 := hcount b hpv
    by_cases hrow :
        ((List.range 9).all fun cx => cx == p.x || !(isPoss b ⟨cx, p.y⟩ v)) = true
    · simp only [hrow, if_true]
      have hc2 := hcount _ hc1.2
      by_cases hcol : ((List.range 9).all fun cy =>
          cy == p.y || !(isPoss (makeSureCore b p v false) ⟨p.x, cy⟩ v)) = true
      · simp only [hcol, if_true]
        have hc3 := hcount _ hc2.2
        by_cases hchunk : ((chunkCells p).all fun q =>
            (q.x == p.x && q.y == p.y) ||
              !(isPoss (makeSureCore (makeSureCore b p v false) p v false) q v)) = true
        · simp only [hchunk, if_true]
          refine ⟨⟨3, by omega⟩, ?_, ?_⟩
          · rw [hc3.1]
          · intro j hj
            rw [houtside _ j hj, houtside _ j hj, houtside _ j hj]
        · rw [Bool.not_eq_true] at hchunk
          simp only [hchunk, Bool.false_eq_true, if_false]
          refine ⟨⟨2, by omega⟩, ?_, ?_⟩
          · rw [hc2.1]
          · intro j hj
            rw [houtside _ j hj, houtside _ j hj]
      · rw [Bool.not_eq_true] at hcol
        simp only [hcol, Bool.false_eq_true, if_false]
        by_cases hchunk : ((chunkCells p).all fun q =>
            (q.x == p.x && q.y == p.y) ||
              !(isPoss (makeSureCore b p v false) q v)) = true
        · simp only [hchunk, if_true]
          have hc3 := hcount _ hc1.2
          refine ⟨⟨2, by omega⟩, ?_, ?_⟩
          · rw [hc3.1]
          · intro j hj
            rw [houtside _ j hj, houtside _ j hj]
        · rw [Bool.not_eq_true] at hchunk
          simp only [hchunk, Bool.false_eq_true, if_false]
          refine ⟨⟨1, by omega⟩, ?_, ?_⟩
          · rw [hc1.1]
          · intro j hj
            rw [houtside _ j hj]
    · rw [Bool.not_eq_true] at hrow
      simp only [hrow, Bool.false_eq_true, if_false]
      by_cases hcol : ((List.range 9).all fun cy =>
          cy == p.y || !(isPoss b ⟨p.x, cy⟩ v)) = true
      · simp only [hcol, if_true]
        have hc2 := hcount _ hc1.2
        by_cases hchunk : ((chunkCells p).all fun q =>
            (q.x == p.x && q.y == p.y) ||
              !(isPoss (makeSureCore b p v false) q v)) = true
        · simp only [hchunk, if_true]
          refine ⟨⟨2, by omega⟩, ?_, ?_⟩
          · rw [hc2.1]
          · intro j hj
            rw [houtside _ j hj, houtside _ j hj]
        · rw [Bool.not_eq_true] at hchunk
          simp only [hchunk, Bool.false_eq_true, if_false]
          refine ⟨⟨1, by omega⟩, ?_, ?_⟩
          · rw [hc1.1]
          · intro j hj
            rw [houtside _ j hj]
      · rw [Bool.not_eq_true] at hcol
        simp only [hcol, Bool.false_eq_true, if_false]
        by_cases hchunk : ((chunkCells p).all fun q =>
            (q.x == p.x && q.y == p.y) || !(isPoss b q v)) = true
        · simp only [hchunk, if_true]
          refine ⟨⟨1, by omega⟩, ?_, ?_⟩
          · rw [hc1.1]
          · intro j hj
            rw [houtside _ j hj]
        · rw [Bool.not_eq_true] at hchunk
          simp only [hchunk, Bool.false_eq_true, if_false]
          refine ⟨⟨0, by omega⟩, ?_, by simp⟩
          rw [hcnt]; omega
  · rw [Bool.not_eq_true] at hpv
    simp only [hpv, Bool.not_false, if_true]
    refine ⟨⟨0, by omega⟩, ?_, by simp⟩
    rw [hcnt]; omega

/-- Witness for the amended C4 at the counterexample cell: both the row
and the column fire for value 1 at (0,0) of `ceBoard` (`k = 2`), the
cell loses one flag, and the rest of the board is untouched. -/
theorem c4_hidden_single_stale_count_witness :
    (∃ k, k ≤ 3 ∧
      (hiddenSingleValue unitSL ⟨0, 0⟩ 2 1 (ceBoard, 0, ())).2.1 = 0 + k * (2 - 1)) ∧
    2 - countAt (hiddenSingleValue unitSL ⟨0, 0⟩ 2 1 (ceBoard, 0, ())).1 ⟨0, 0⟩ ≤ 2 - 1 ∧
    (∀ j, (∀ w, 1 ≤ w → w ≤ 9 → j ≠ bitIndexAt ⟨0, 0⟩ w) →
      ((hiddenSingleValue unitSL ⟨0, 0⟩ 2 1 (ceBoard, 0, ())).1).testBit j =
        ceBoard.testBit j) :=
  c4_hidden_single_stale_count unitSL ⟨0, 0⟩ 2 1 ceBoard 0 ()
    (by decide) (by decide) (by decide) (by decide)

/-! ### Claim C7: `findMRVCell` characterization -/

theorem countAt_le_9 (b : Board) (p : GPos) : countAt b p ≤ 9 := by
  rw [countAt_eq_countP]
  calc (List.range' 1 9).countP (fun v => isPoss b p v)
      ≤ (List.range' 1 9).length := List.countP_le_length _
    _ = 9 := by simp

theorem findMRVGo_zero (b : Board) :
    ∀ (cs : List GPos) (bp : GPos) (bc : Nat) (q : GPos),
      cs.find? (fun p => countAt b p == 0) = some q →
      findMRVGo b cs bp bc = some (q, 0) := by
  intro cs
  induction cs with
  | nil => intro bp bc q h; cases h
  | cons p t ih =>
    intro bp bc q h
    rw [List.find?_cons] at h
    by_cases hp : countAt b p = 0
    · have : (countAt b p == 0) = true := by simpa using hp
      rw [this] at h
      have hq : p = q := by simpa using h
      subst hq
      rw [findMRVGo]
      simp [hp]
    · have : (countAt b p == 0) = false := by simpa using hp
      rw [this] at h
      rw [findMRVGo]
      simp only [hp, if_false]
      by_cases hsel : 1 < countAt b p ∧ countAt b p < bc
      · simp only [hsel, if_true]
        exact ih p (countAt b p) q h
      · simp only [hsel, if_false]
        exact ih bp bc q h

theorem findMRVGo_all_ones (b : Board) :
    ∀ (cs : List GPos) (bp : GPos),
      (∀ p ∈ cs, countAt b p = 1) → findMRVGo b cs bp 10 = none := by
  intro cs
  induction cs with
  | nil => intro bp _; rfl
  | cons p t ih =>
    intro bp h
    have hp : countAt b p = 1 := h p (by simp)
    rw [findMRVGo]
    have h0 : ¬(countAt b p = 0) := by omega
    have hsel : ¬(1 < countAt b p ∧ countAt b p < 10) := by omega
    simp only [h0, hsel, if_false]
    exact ih bp (fun r hr => h r (List.mem_cons_of_mem _ hr))

theorem findMRVGo_spec (b : Board) :
    ∀ (cs : List GPos) (bp : GPos) (bc : Nat),
      (∀ p ∈ cs, countAt b p ≠ 0) → 2 ≤ bc →
      ((∀ p ∈ cs, ¬(1 < countAt b p ∧ countAt b p < bc)) ∧
        findMRVGo b cs bp bc = (if bc = 10 then none else some (bp, bc))) ∨
      (∃ q c, findMRVGo b cs bp bc = some (q, c) ∧ 2 ≤ c ∧ c < bc ∧
        countAt b q = c ∧
        (∀ p ∈ cs, 1 < countAt b p → c ≤ countAt b p) ∧
        cs.find? (fun p => countAt b p == c) = some q) := by
  intro cs
  induction cs with
  | nil =>
    intro bp bc _ _
    left
    exact ⟨by simp, rfl⟩
  | cons p t ih =>
    intro bp bc hnz hbc
    have hp : countAt b p ≠ 0 := hnz p (by simp)
    have hrest : ∀ r ∈ t, countAt b r ≠ 0 :=
      fun r hr => hnz r (List.mem_cons_of_mem _ hr)
    rw [findMRVGo]
    simp only [hp, if_false]
    by_cases hsel : 1 < countAt b p ∧ countAt b p < bc
    · simp only [hsel, if_true]
      rcases ih p (countAt b p) hrest (by omega) with ⟨hnone, heq⟩ | hex
      · right
        have hcap : countAt b p ≤ 9 := countAt_le_9 b p
        have hne10 : ¬(countAt b p = 10) := by omega
        rw [heq]
        refine ⟨p, countAt b p, by simp [hne10], by omega, hsel.2, rfl, ?_, ?_⟩
        · intro r hr h1
          rcases List.mem_cons.mp hr with rfl | hrt
          · omega
          · have := hnone r hrt
            omega
        · rw [List.find?_cons]
          simp
      · obtain ⟨q, c, hres, h2c, hclt, hcq, hmin, hfind⟩ := hex
        right
        refine ⟨q, c, hres, h2c, by omega, hcq, ?_, ?_⟩
        · intro r hr h1
          rcases List.mem_cons.mp hr with rfl | hrt
          · omega
          · exact hmin r hrt h1
        · rw [List.find?_cons]
          have : (countAt b p == c) = false := by
            simp only [beq_eq_false_iff_ne, ne_eq]
            omega
          rw [this]
          exact hfind
    · simp only [hsel, if_false]
      rcases ih bp bc hrest hbc with ⟨hnone, heq⟩ | hex
      · left
        refine ⟨?_, heq⟩
        intro r hr
        rcases List.mem_cons.mp hr with rfl | hrt
        · exact hsel
        · exact hnone r hrt
      · obtain ⟨q, c, hres, h2c, hclt, hcq, hmin, hfind⟩ := hex
        right
        refine ⟨q, c, hres, h2c, hclt, hcq, ?_, ?_⟩
        · intro r hr h1
          rcases List.mem_cons.mp hr with rfl | hrt
          · omega
          · exact hmin r hrt h1
        · rw [List.find?_cons]
          have : (countAt b p == c) = false := by
            simp only [beq_eq_false_iff_ne, ne_eq]
            omega
          rw [this]
          exact hfind

/-- C7: `findMRVCell` is a function of the board state (repeated calls
agree); if some cell has zero candidates it returns the first such cell
in row-major scan order with count 0; otherwise, if some cell has a
candidate count in `[2,9]`, it returns the cell with the lowest
row-major index among those attaining the minimal such count; and if
every cell has exactly one candidate it signals the fatal internal
error (embedded as `none`) instead of returning normally. -/
theorem c7_findMRVCell_spec (b : Board) :
    (findMRVCell b = findMRVCell b) ∧
    (∀ q, allCells.find? (fun p => countAt b p == 0) = some q →
      findMRVCell b = some (q, 0)) ∧
    ((∀ p ∈ allCells, countAt b p ≠ 0) → (∀ p ∈ allCells, countAt b p = 1) →
      findMRVCell b = none) ∧
    ((∀ p ∈ allCells, countAt b p ≠ 0) →
      (∃ p ∈ allCells, 2 ≤ countAt b p) →
      ∃ q c, findMRVCell b = some (q, c) ∧ 2 ≤ c ∧ c ≤ 9 ∧ countAt b q = c ∧
        (∀ r ∈ allCells, 2 ≤ countAt b r → c ≤ countAt b r) ∧
        allCells.find? (fun r => countAt b r == c) = some q) := by
  refine ⟨rfl, ?_, ?_, ?_⟩
  · intro q h
    exact findMRVGo_zero b allCells ⟨0, 0⟩ 10 q h
  · intro _ h1
    exact findMRVGo_all_ones b allCells ⟨0, 0⟩ h1
  · intro hnz hex
    rcases findMRVGo_spec b allCells ⟨0, 0⟩ 10 hnz (by omega) with ⟨hnone, _⟩ | hr
    · obtain ⟨p, hpmem, hp2⟩ := hex
      have hcap : countAt b p ≤ 9 := countAt_le_9 b p
      exact absurd ⟨by omega, by omega⟩ (hnone p hpmem)
    · obtain ⟨q, c, hres, h2c, hclt, hcq, hmin, hfind⟩ := hr
      have : countAt b q ≤ 9 := countAt_le_9 b q
      exact ⟨q, c, hres, h2c, by omega, hcq,
        fun r hr h2r => hmin r hr (by omega), hfind⟩

/-- Witness for C7: the zero-cell case on `emptyCellBoard`, the
all-determined case on `onesBoard`, and the MRV case on `c9Board`. -/
theorem c7_findMRVCell_spec_witness :
    findMRVCell emptyCellBoard = some (⟨5, 5⟩, 0) ∧
    findMRVCell onesBoard = none ∧
    (∃ q c, findMRVCell c9Board = some (q, c) ∧ 2 ≤ c ∧ c ≤ 9 ∧
      countAt c9Board q = c ∧
      (∀ r ∈ allCells, 2 ≤ countAt c9Board r → c ≤ countAt c9Board r) ∧
      allCells.find? (fun r => countAt c9Board r == c) = some q) :=
  ⟨(c7_findMRVCell_spec emptyCellBoard).2.1 ⟨5, 5⟩ (by decide),
    (c7_findMRVCell_spec onesBoard).2.2.1 (by decide) (by decide),
    (c7_findMRVCell_spec c9Board).2.2.2 (by decide) ⟨⟨0, 0⟩, by decide, by decide⟩⟩

/-! ### Listener independence (towards claims C8 and C5)

The solver invokes its callbacks but never reads anything back from
them; the following lemmas make that precise: the board / counter /
outcome components of every stage are the same for any two listener
triples and observer states. -/

theorem foldl_dropS3 {σ τ α : Type}
    (f : Board × Nat × σ → α → Board × Nat × σ)
    (g : Board × Nat × τ → α → Board × Nat × τ)
    (h : ∀ (b : Board) (e : Nat) (s : σ) (t : τ) (x : α),
      dropS3 (f (b, e, s) x) = dropS3 (g (b, e, t) x)) :
    ∀ (l : List α) (b : Board) (e : Nat) (s : σ) (t : τ),
      dropS3 (l.foldl f (b, e, s)) = dropS3 (l.foldl g (b, e, t)) := by
  intro l
  induction l with
  | nil => intro b e s t; rfl
  | cons x xs ih =>
    intro b e s t
    rw [List.foldl_cons, List.foldl_cons]
    rcases hfx : f (b, e, s) x with ⟨b1, e1, s1⟩
    rcases hgx : g (b, e, t) x with ⟨b2, e2, t2⟩
    have hx := h b e s t x
    rw [hfx, hgx] at hx
    unfold dropS3 at hx
    simp only [Prod.mk.injEq] at hx
    obtain ⟨hb, he⟩ := hx
    subst hb; subst he
    exact ih b1 e1 s1 t2

theorem elimPeerStep_dropS {σ τ : Type} (L : SimpListeners σ)
    (M : SimpListeners τ) (c : SimplificationCause) (v bv : Nat) (peer : GPos)
    (b : Board) (e : Nat) (s : σ) (t : τ) :
    dropS3 (elimPeerStep L c v bv peer (b, e, s)) =
      dropS3 (elimPeerStep M c v bv peer (b, e, t)) := by
  unfold elimPeerStep dropS3
  by_cases h : isPoss b peer v = true <;> simp [h]

theorem nakedElim_dropS {σ τ : Type} (L : SimpListeners σ)
    (M : SimpListeners τ) (p : GPos) (v0 : Nat) (b : Board) (e : Nat)
    (s : σ) (t : τ) :
    dropS3 (nakedElim L p v0 (b, e, s)) = dropS3 (nakedElim M p v0 (b, e, t)) := by
  have hrow := foldl_dropS3
    (fun a cx => if cx = p.x then a
      else elimPeerStep L .eliminationByRow v0 p.y ⟨cx, p.y⟩ a)
    (fun a cx => if cx = p.x then a
      else elimPeerStep M .eliminationByRow v0 p.y ⟨cx, p.y⟩ a)
    (by
      intro b e s t cx
      by_cases h : cx = p.x
      · simp [h, dropS3]
      · simp only [h, if_false]
        exact elimPeerStep_dropS L M _ v0 p.y ⟨cx, p.y⟩ b e s t)
    (List.range 9)
  have hcol := foldl_dropS3
    (fun a cy => if cy = p.y then a
      else elimPeerStep L .eliminationByColumn v0 p.x ⟨p.x, cy⟩ a)
    (fun a cy => if cy = p.y then a
      else elimPeerStep M .eliminationByColumn v0 p.x ⟨p.x, cy⟩ a)
    (by
      intro b e s t cy
      by_cases h : cy = p.y
      · simp [h, dropS3]
      · simp only [h, if_false]
        exact elimPeerStep_dropS L M _ v0 p.x ⟨p.x, cy⟩ b e s t)
    (List.range 9)
  have hchunk := foldl_dropS3
    (fun a q => if q.x = p.x ∧ q.y = p.y then a
      else elimPeerStep L .eliminationByChunk v0 (chunkIdx p) q a)
    (fun a q => if q.x = p.x ∧ q.y = p.y then a
      else elimPeerStep M .eliminationByChunk v0 (chunkIdx p) q a)
    (by
      intro b e s t q
      by_cases h : q.x = p.x ∧ q.y = p.y
      · simp [h, dropS3]
      · simp only [h, if_false]
        exact elimPeerStep_dropS L M _ v0 (chunkIdx p) q b e s t)
    (chunkCells p)
  simp only [nakedElim]
  rcases h1 : (List.range 9).foldl
      (fun a cx => if cx = p.x then a
        else elimPeerStep L .eliminationByRow v0 p.y ⟨cx, p.y⟩ a) (b, e, s)
    with ⟨b1, e1, s1⟩
  rcases h2 : (List.range 9).foldl
      (fun a cx => if cx = p.x then a
        else elimPeerStep M .eliminationByRow v0 p.y ⟨cx, p.y⟩ a) (b, e, t)
    with ⟨b2, e2, t2⟩
  have h12 := hrow b e s t
  rw [h1, h2] at h12
  unfold dropS3 at h12
  simp only [Prod.mk.injEq] at h12
  obtain ⟨hb, he⟩ := h12
  subst hb; subst he
  rcases h3 : (List.range 9).foldl
      (fun a cy => if cy = p.y then a
        else elimPeerStep L .eliminationByColumn v0 p.x ⟨p.x, cy⟩ a) (b1, e1, s1)
    with ⟨b3, e3, s3⟩
  rcases h4 : (List.range 9).foldl
      (fun a cy => if cy = p.y then a
        else elimPeerStep M .eliminationByColumn v0 p.x ⟨p.x, cy⟩ a) (b1, e1, t2)
    with ⟨b4, e4, t4⟩
  have h34 := hcol b1 e1 s1 t2
  rw [h3, h4] at h34
  unfold dropS3 at h34
  simp only [Prod.mk.injEq] at h34
  obtain ⟨hb, he⟩ := h34
  subst hb; subst he
  exact hchunk b3 e3 s3 t4

theorem hiddenSingleValue_dropS {σ τ : Type} (L : SimpListeners σ)
    (M : SimpListeners τ) (p : GPos) (cnt v : Nat) (b : Board) (e : Nat)
    (s : σ) (t : τ) :
    dropS3 (hiddenSingleValue L p cnt v (b, e, s)) =
      dropS3 (hiddenSingleValue M p cnt v (b, e, t)) := by
  unfold hiddenSingleValue
  by_cases hpv : isPoss b p v = true
  · simp only [hpv, Bool.not_true, Bool.false_eq_true, if_false]
    by_cases hrow :
        ((List.range 9).all fun cx => cx == p.x || !(isPoss b ⟨cx, p.y⟩ v)) = true
    · simp only [hrow, if_true]
      by_cases hcol : ((List.range 9).all fun cy =>
          cy == p.y || !(isPoss (makeSureCore b p v false) ⟨p.x, cy⟩ v)) = true
      · simp only [hcol, if_true]
        by_cases hchunk : ((chunkCells p).all fun q =>
            (q.x == p.x && q.y == p.y) ||
              !(isPoss (makeSureCore (makeSureCore b p v false) p v false) q v)) = true
        · simp only [hchunk, if_true]; rfl
        · rw [Bool.not_eq_true] at hchunk
          simp only [hchunk, Bool.false_eq_true, if_false]; rfl
      · rw [Bool.not_eq_true] at hcol
        simp only [hcol, Bool.false_eq_true, if_false]
        by_cases hchunk : ((chunkCells p).all fun q =>
            (q.x == p.x && q.y == p.y) ||
              !(isPoss (makeSureCore b p v false) q v)) = true
        · simp only [hchunk, if_true]; rfl
        · rw [Bool.not_eq_true] at hchunk
          simp only [hchunk, Bool.false_eq_true, if_false]; rfl
    · rw [Bool.not_eq_true] at hrow
      simp only [hrow, Bool.false_eq_true, if_false]
      by_cases hcol : ((List.range 9).all fun cy =>
          cy == p.y || !(isPoss b ⟨p.x, cy⟩ v)) = true
      · simp only [hcol, if_true]
        by_cases hchunk : ((chunkCells p).all fun q =>
            (q.x == p.x && q.y == p.y) ||
              !(isPoss (makeSureCore b p v false) q v)) = true
        · simp only [hchunk, if_true]; rfl
        · rw [Bool.not_eq_true] at hchunk
          simp only [hchunk, Bool.false_eq_true, if_false]; rfl
      · rw [Bool.not_eq_true] at hcol
        simp only [hcol, Bool.false_eq_true, if_false]
        by_cases hchunk : ((chunkCells p).all fun q =>
            (q.x == p.x && q.y == p.y) || !(isPoss b q v)) = true
        · simp only [hchunk, if_true]; rfl
        · rw [Bool.not_eq_true] at hchunk
          simp only [hchunk, Bool.false_eq_true, if_false]; rfl
  · rw [Bool.not_eq_true] at hpv
    simp only [hpv, Bool.not_false, if_true]
    rfl

theorem simplifyCell_dropS {σ τ : Type} (L : SimpListeners σ)
    (M : SimpListeners τ) (p : GPos) (b : Board) (e : Nat) (s : σ) (t : τ) :
    dropS4 (simplifyCell L p (b, e, s)) = dropS4 (simplifyCell M p (b, e, t)) := by
  simp only [simplifyCell]
  by_cases h0 : (getCellInfoAt b p).2 = 0
  · simp [h0, dropS4]
  · simp only [h0, if_false]
    rcases hA : (if (getCellInfoAt b p).2 = 1 then
        nakedElim L p (getCellInfoAt b p).1 (b, e, s) else (b, e, s))
      with ⟨b1, e1, s1⟩
    rcases hB : (if (getCellInfoAt b p).2 = 1 then
        nakedElim M p (getCellInfoAt b p).1 (b, e, t) else (b, e, t))
      with ⟨b2, e2, t2⟩
    have hAB : dropS3 (b1, e1, s1) = dropS3 (b2, e2, t2) := by
      rw [← hA, ← hB]
      by_cases h1 : (getCellInfoAt b p).2 = 1
      · simp only [h1, if_true]
        exact nakedElim_dropS L M p _ b e s t
      · simp only [h1, if_false]
        rfl
    unfold dropS3 at hAB
    simp only [Prod.mk.injEq] at hAB
    obtain ⟨hb, he⟩ := hAB
    subst hb; subst he
    by_cases h20 : (getCellInfoAt b1 p).2 = 0
    · simp [h20, dropS4]
    · simp only [h20, if_false]
      by_cases h21 : (getCellInfoAt b1 p).2 = 1
      · simp [h21, dropS4]
      · simp only [h21, if_false]
        rcases hC : (List.range' 1 9).foldl
            (fun a v => hiddenSingleValue L p (getCellInfoAt b1 p).2 v a)
            (b1, e1, s1) with ⟨b3, e3, s3⟩
        rcases hD : (List.range' 1 9).foldl
            (fun a v => hiddenSingleValue M p (getCellInfoAt b1 p).2 v a)
            (b1, e1, t2) with ⟨b4, e4, t4⟩
        have hCD := foldl_dropS3
          (fun a v => hiddenSingleValue L p (getCellInfoAt b1 p).2 v a)
          (fun a v => hiddenSingleValue M p (getCellInfoAt b1 p).2 v a)
          (fun b e s t v => hiddenSingleValue_dropS L M p _ v b e s t)
          (List.range' 1 9) b1 e1 s1 t2
        rw [hC, hD] at hCD
        unfold dropS3 at hCD
        simp only [Prod.mk.injEq] at hCD
        obtain ⟨hb, he⟩ := hCD
        subst hb; subst he
        rfl

theorem simplifyCells_dropS {σ τ : Type} (L : SimpListeners σ)
    (M : SimpListeners τ) :
    ∀ (cs : List GPos) (b : Board) (e : Nat) (s : σ) (t : τ),
      dropS4 (simplifyCells L cs (b, e, s)) =
        dropS4 (simplifyCells M cs (b, e, t)) := by
  intro cs
  induction cs with
  | nil => intro b e s t; rfl
  | cons p rest ih =>
    intro b e s t
    simp only [simplifyCells]
    rcases hA : simplifyCell L p (b, e, s) with ⟨b1, e1, ok1, s1⟩
    rcases hB : simplifyCell M p (b, e, t) with ⟨b2, e2, ok2, t2⟩
    have hAB := simplifyCell_dropS L M p b e s t
    rw [hA, hB] at hAB
    unfold dropS4 at hAB
    simp only [Prod.mk.injEq] at hAB
    obtain ⟨hb, he, hok⟩ := hAB
    subst hb; subst he; subst hok
    by_cases hk : ok1 = true
    · subst hk
      simp only [if_true]
      exact ih b1 e1 s1 t2
    · have hkf : ok1 = false := by simpa using hk
      subst hkf
      simp [dropS4]

theorem simplify_dropS {σ τ : Type} (L : SimpListeners σ) (M : SimpListeners τ)
    (b : Board) (s : σ) (t : τ) :
    dropS4 (simplify L b s) = dropS4 (simplify M b t) :=
  simplifyCells_dropS L M allCells b 0 s t

theorem simplifyToTheEndFuel_dropS {σ τ : Type} (L : SimpListeners σ)
    (M : SimpListeners τ) :
    ∀ (fuel idx tot : Nat) (b : Board) (s : σ) (t : τ),
      dropSE (simplifyToTheEndFuel L fuel idx tot b s) =
        dropSE (simplifyToTheEndFuel M fuel idx tot b t) := by
  intro fuel
  induction fuel with
  | zero => intro idx tot b s t; rfl
  | succ fuel ih =>
    intro idx tot b s t
    simp only [simplifyToTheEndFuel]
    rcases hA : simplify L b s with ⟨b1, e1, ok1, s1⟩
    rcases hB : simplify M b t with ⟨b2, e2, ok2, t2⟩
    have hAB := simplify_dropS L M b s t
    rw [hA, hB] at hAB
    unfold dropS4 at hAB
    simp only [Prod.mk.injEq] at hAB
    obtain ⟨hb, he, hok⟩ := hAB
    subst hb; subst he; subst hok
    by_cases hk : ok1 = true
    · subst hk
      simp only [Bool.not_true, Bool.false_eq_true, if_false]
      by_cases he0 : e1 = 0
      · simp [he0, dropSE]
      · simp only [he0, if_false]
        exact ih (idx + 1) (tot + e1) b1 _ _
    · have hkf : ok1 = false := by simpa using hk
      subst hkf
      simp [dropSE]

theorem dfsTry_dropS {σ τ : Type} (L : DfsListeners σ) (M : DfsListeners τ)
    (recL : Board → List Nat → Nat → σ → Option (Bool × Board × σ))
    (recM : Board → List Nat → Nat → τ → Option (Bool × Board × τ))
    (hrec : ∀ (b : Board) (path : List Nat) (assigned : Nat) (s : σ) (t : τ),
      dropSD (recL b path assigned s) = dropSD (recM b path assigned t))
    (pos : GPos) :
    ∀ (cands : List Nat) (branchIdx : Nat) (b : Board) (path : List Nat)
      (assigned : Nat) (s : σ) (t : τ),
      dropSD (dfsTry L recL pos cands branchIdx b path assigned s) =
        dropSD (dfsTry M recM pos cands branchIdx b path assigned t) := by
  intro cands
  induction cands with
  | nil => intro branchIdx b path assigned s t; rfl
  | cons v rest ih =>
    intro branchIdx b path assigned s t
    simp only [dfsTry]
    rcases hA : recL (makeSureCore b pos v false) (path ++ [branchIdx]) assigned
        (L.onAssign (path ++ [branchIdx]) assigned pos s) with _ | ⟨okA, bA, sA⟩ <;>
      rcases hB : recM (makeSureCore b pos v false) (path ++ [branchIdx]) assigned
          (M.onAssign (path ++ [branchIdx]) assigned pos t) with _ | ⟨okB, bB, tB⟩ <;>
      have hAB := hrec (makeSureCore b pos v false) (path ++ [branchIdx]) assigned
        (L.onAssign (path ++ [branchIdx]) assigned pos s)
        (M.onAssign (path ++ [branchIdx]) assigned pos t) <;>
      rw [hA, hB] at hAB
    · rfl
    · exact absurd hAB (by simp [dropSD])
    · exact absurd hAB (by simp [dropSD])
    · simp only [dropSD, Option.map_some', Option.some.injEq, Prod.mk.injEq] at hAB
      obtain ⟨hok, hb⟩ := hAB
      subst hok; subst hb
      cases okA with
      | true => rfl
      | false => exact ih (branchIdx + 1) (boardFromData (copyData b)) path assigned sA tB

theorem dfsCore_dropS {σ τ : Type} (L : DfsListeners σ) (M : DfsListeners τ) :
    ∀ (fuel : Nat) (b : Board) (path : List Nat) (assigned : Nat)
      (isFirst : Bool) (s : σ) (t : τ),
      dropSD (dfsCore L fuel b path assigned isFirst s) =
        dropSD (dfsCore M fuel b path assigned isFirst t) := by
  intro fuel
  induction fuel with
  | zero => intro b path assigned isFirst s t; rfl
  | succ fuel ih =>
    intro b path assigned isFirst s t
    simp only [dfsCore]
    rcases hA : simplifyToTheEnd (wrapListeners L path isFirst assigned) b s
      with _ | ⟨totA, okA, bA, sA⟩ <;>
      rcases hB : simplifyToTheEnd (wrapListeners M path isFirst assigned) b t
        with _ | ⟨totB, okB, bB, tB⟩ <;>
      have hAB : dropSE (simplifyToTheEnd (wrapListeners L path isFirst assigned) b s) =
          dropSE (simplifyToTheEnd (wrapListeners M path isFirst assigned) b t) :=
        simplifyToTheEndFuel_dropS (wrapListeners L path isFirst assigned)
          (wrapListeners M path isFirst assigned) 729 0 0 b s t <;>
      rw [hA, hB] at hAB
    · rfl
    · exact absurd hAB (by simp [dropSE])
    · exact absurd hAB (by simp [dropSE])
    · simp only [dropSE, Option.map_some', Option.some.injEq, Prod.mk.injEq] at hAB
      obtain ⟨htot, hok, hb⟩ := hAB
      subst htot; subst hok; subst hb
      by_cases hk : okA = true
      · subst hk
        simp only [Bool.not_true, Bool.false_eq_true, if_false]
        by_cases hsol : isSolved bA = true
        · simp [hsol, dropSD]
        · have hsf : isSolved bA = false := by simpa using hsol
          simp only [hsf, Bool.false_eq_true, if_false]
          rcases hmrv : findMRVCell bA with _ | ⟨pos, cnt⟩
          · rfl
          · by_cases hc0 : cnt = 0
            · simp [hc0, dropSD]
            · simp only [hc0, if_false]
              exact dfsTry_dropS L M _ _
                (fun b' p' a' s' t' => ih b' p' a' false s' t') pos
                (getCandiatesAt bA pos) 0 bA path
                (setAssigned assigned pos true) sA tB
      · have hkf : okA = false := by simpa using hk
        subst hkf
        rfl

/-! ### Claim C8: observer callbacks never alter the solver outcome -/

/-- C8: for any two triples of observer callbacks (over any observer
state types) and any observer start states, running `dfsSolve` with the
same fuel from the same initial board state and assigned-marker mask
yields the same boolean result and the same final board candidate
state; in particular the outcome equals the one obtained with no-op
listeners. -/
theorem c8_listener_independence {σ τ : Type} (L : DfsListeners σ)
    (M : DfsListeners τ) (fuel : Nat) (b : Board) (assigned : Nat)
    (s : σ) (t : τ) :
    dropSD (dfsSolve L fuel b assigned s) = dropSD (dfsSolve M fuel b assigned t) ∧
    dropSD (dfsSolve L fuel b assigned s) =
      dropSD (dfsSolve unitDL fuel b assigned ()) :=
  ⟨dfsCore_dropS L M fuel b [0] assigned true s t,
    dfsCore_dropS L unitDL fuel b [0] assigned true s ()⟩

/-! ### Claim C5: pass-summary listener invocations -/

theorem foldl_keepS {σ α : Type} (f : Board × Nat × σ → α → Board × Nat × σ)
    (hf : ∀ (acc : Board × Nat × σ) (x : α), (f acc x).2.2 = acc.2.2) :
    ∀ (l : List α) (acc : Board × Nat × σ), (l.foldl f acc).2.2 = acc.2.2 := by
  intro l
  induction l with
  | nil => intro acc; rfl
  | cons x xs ih =>
    intro acc
    rw [List.foldl_cons, ih, hf]

theorem elimPeerStep_keepS {σ : Type} (L : SimpListeners σ)
    (hL : ∀ c q v bv s, L.onElim c q v bv s = s) (c : SimplificationCause)
    (v bv : Nat) (peer : GPos) (acc : Board × Nat × σ) :
    (elimPeerStep L c v bv peer acc).2.2 = acc.2.2 := by
  unfold elimPeerStep
  by_cases h : isPoss acc.1 peer v = true <;> simp [h, hL]

theorem nakedElim_keepS {σ : Type} (L : SimpListeners σ)
    (hL : ∀ c q v bv s, L.onElim c q v bv s = s) (p : GPos) (v0 : Nat)
    (acc : Board × Nat × σ) :
    (nakedElim L p v0 acc).2.2 = acc.2.2 := by
  have hrow : ∀ (a : Board × Nat × σ) (cx : Nat),
      ((if cx = p.x then a
        else elimPeerStep L .eliminationByRow v0 p.y ⟨cx, p.y⟩ a)).2.2 = a.2.2 := by
    intro a cx
    by_cases h : cx = p.x
    · simp [h]
    · simp [h, elimPeerStep_keepS L hL]
  have hcol : ∀ (a : Board × Nat × σ) (cy : Nat),
      ((if cy = p.y then a
        else elimPeerStep L .eliminationByColumn v0 p.x ⟨p.x, cy⟩ a)).2.2 = a.2.2 := by
    intro a cy
    by_cases h : cy = p.y
    · simp [h]
    · simp [h, elimPeerStep_keepS L hL]
  have hchunk : ∀ (a : Board × Nat × σ) (q : GPos),
      ((if q.x = p.x ∧ q.y = p.y then a
        else elimPeerStep L .eliminationByChunk v0 (chunkIdx p) q a)).2.2 = a.2.2 := by
    intro a q
    by_cases h : q.x = p.x ∧ q.y = p.y
    · simp [h]
    · simp [h, elimPeerStep_keepS L hL]
  simp only [nakedElim]
  rw [foldl_keepS _ hchunk, foldl_keepS _ hcol, foldl_keepS _ hrow]

theorem hiddenSingleValue_keepS {σ : Type} (L : SimpListeners σ)
    (hL : ∀ c q v bv s, L.onElim c q v bv s = s) (p : GPos) (cnt v : Nat)
    (b : Board) (e : Nat) (s : σ) :
    (hiddenSingleValue L p cnt v (b, e, s)).2.2 = s := by
  unfold hiddenSingleValue
  by_cases hpv : isPoss b p v = true
  · simp only [hpv, Bool.not_true, Bool.false_eq_true, if_false]
    split <;> split <;> split <;> simp [hL]
  · rw [Bool.not_eq_true] at hpv
    simp only [hpv, Bool.not_false, if_true]

theorem simplifyCell_keepS {σ : Type} (L : SimpListeners σ)
    (hL : ∀ c q v bv s, L.onElim c q v bv s = s) (p : GPos)
    (b : Board) (e : Nat) (s : σ) :
    (simplifyCell L p (b, e, s)).2.2.2 = s := by
  simp only [simplifyCell]
  by_cases h0 : (getCellInfoAt b p).2 = 0
  · simp [h0, hL]
  · simp only [h0, if_false]
    rcases hA : (if (getCellInfoAt b p).2 = 1 then
        nakedElim L p (getCellInfoAt b p).1 (b, e, s) else (b, e, s))
      with ⟨b1, e1, s1⟩
    have hs1 : s1 = s := by
      by_cases h1 : (getCellInfoAt b p).2 = 1
      · rw [if_pos h1] at hA
        have := nakedElim_keepS L hL p (getCellInfoAt b p).1 (b, e, s)
        rw [hA] at this
        exact this
      · rw [if_neg h1] at hA
        cases hA
        rfl
    subst hs1
    by_cases h20 : (getCellInfoAt b1 p).2 = 0
    · simp [h20, hL]
    · simp only [h20, if_false]
      by_cases h21 : (getCellInfoAt b1 p).2 = 1
      · simp [h21]
      · simp only [h21, if_false]
        exact foldl_keepS _
          (fun acc v => by
            rcases acc with ⟨bb, ee, ss⟩
            exact hiddenSingleValue_keepS L hL p (getCellInfoAt b1 p).2 v bb ee ss)
          (List.range' 1 9) (b1, e1, s1)

theorem simplifyCells_keepS {σ : Type} (L : SimpListeners σ)
    (hL : ∀ c q v bv s, L.onElim c q v bv s = s) :
    ∀ (cs : List GPos) (b : Board) (e : Nat) (s : σ),
      (simplifyCells L cs (b, e, s)).2.2.2 = s := by
  intro cs
  induction cs with
  | nil => intro b e s; rfl
  | cons p rest ih =>
    intro b e s
    simp only [simplifyCells]
    rcases hA : simplifyCell L p (b, e, s) with ⟨b1, e1, ok1, s1⟩
    have hs1 : s1 = s := by
      have := simplifyCell_keepS L hL p b e s
      rw [hA] at this
      exact this
    subst hs1
    by_cases hk : ok1 = true
    · subst hk
      simp only [if_true]
      exact ih b1 e1 s1
    · have hkf : ok1 = false := by simpa using hk
      subst hkf
      simp

theorem simplify_keepS {σ : Type} (L : SimpListeners σ)
    (hL : ∀ c q v bv s, L.onElim c q v bv s = s) (b : Board) (s : σ) :
    (simplify L b s).2.2.2 = s :=
  simplifyCells_keepS L hL allCells b 0 s

/-- C5 counterexample: the final fixpoint pass emits no pass-summary
event.  On the default board the very first `simplify()` pass returns
Ok with zero eliminations — one `simplify()` invocation — yet a full
`simplifyToTheEnd` run invokes the pass-summary listener zero times
(the loop breaks before the listener call when `eliminated == 0`). -/
theorem c5_fixpoint_pass_no_event :
    (simplify unitSL defaultBoard ()).2.2.1 = true ∧
    (simplify unitSL defaultBoard ()).2.1 = 0 ∧
    (simplifyToTheEndFuel countPassSL 729 0 0 defaultBoard 0).map
      (fun r => (r.1, r.2.1, r.2.2.2)) = some (0, true, 0) := by
  refine ⟨by decide, by decide, by decide⟩

/-- C5 amended: the pass-summary listener is invoked exactly once per
`simplify()` invocation *except* the final pass of a fixpoint run,
which eliminates zero candidates and emits no event; the failing pass
of a Contradiction run does emit its event, with the partial count
added to the running total.  Formally: a terminating run with the
collecting listener produces exactly the `passSummaries` event list. -/
theorem c5_pass_events_characterization :
    ∀ (fuel idx tot : Nat) (b : Board) (s0 : List (Nat × Nat × Nat))
      (r : Nat × Bool × Board × List (Nat × Nat × Nat)),
      simplifyToTheEndFuel passTraceSL fuel idx tot b s0 = some r →
      r.2.2.2 = s0 ++ passSummaries fuel idx tot b := by
  intro fuel
  induction fuel with
  | zero =>
    intro idx tot b s0 r h
    cases h
  | succ fuel ih =>
    intro idx tot b s0 r h
    rw [simplifyToTheEndFuel] at h
    rw [passSummaries]
    rcases hA : simplify passTraceSL b s0 with ⟨b1, e1, ok1, s1⟩
    rcases hU : simplify unitSL b () with ⟨b2, e2, ok2, u⟩
    have hAB := simplify_dropS passTraceSL unitSL b s0 ()
    rw [hA, hU] at hAB
    unfold dropS4 at hAB
    simp only [Prod.mk.injEq] at hAB
    obtain ⟨hb, he, hok⟩ := hAB
    subst hb; subst he; subst hok
    have hs1 : s1 = s0 := by
      have := simplify_keepS passTraceSL (fun _ _ _ _ _ => rfl) b s0
      rw [hA] at this
      exact this
    subst hs1
    rw [hA] at h
    by_cases hk : ok1 = true
    · subst hk
      simp only [Bool.not_true, Bool.false_eq_true, if_false] at h ⊢
      by_cases he0 : e1 = 0
      · subst he0
        simp only [if_pos rfl] at h ⊢
        cases h
        simp
      · simp only [he0, if_false] at h ⊢
        have := ih (idx + 1) (tot + e1) b1
          (s1 ++ [(idx, e1, tot + e1)]) r h
        rw [this]
        simp [passTraceSL]
    · have hkf : ok1 = false := by simpa using hk
      subst hkf
      simp only [Bool.not_false, if_true] at h ⊢
      cases h
      simp [passTraceSL]

/-- Witness for the amended C5: the fixpoint run on the default board
emits no pass event, matching the empty `passSummaries`; the
contradiction run on `contraBoard` emits exactly one event carrying the
partial count of the failing pass. -/
theorem c5_pass_events_characterization_witness :
    (simplifyToTheEndFuel passTraceSL 729 0 0 defaultBoard []).map
        (fun r => r.2.2.2) = some ([] ++ passSummaries 729 0 0 defaultBoard) ∧
    (simplifyToTheEndFuel passTraceSL 729 0 0 contraBoard []).map
        (fun r => r.2.2.2.length) = some 1 := by
  have hs1 : (simplifyToTheEndFuel passTraceSL 729 0 0 defaultBoard []).isSome
      = true := by decide
  have hs2 : (simplifyToTheEndFuel passTraceSL 729 0 0 contraBoard []).isSome
      = true := by decide
  constructor
  · rcases h : simplifyToTheEndFuel passTraceSL 729 0 0 defaultBoard [] with _ | r
    · rw [h] at hs1
      cases hs1
    · simp only [Option.map_some', Option.some.injEq]
      exact c5_pass_events_characterization 729 0 0 defaultBoard [] r h
  · rcases h : simplifyToTheEndFuel passTraceSL 729 0 0 contraBoard [] with _ | r
    · rw [h] at hs2
      cases hs2
    · simp only [Option.map_some', Option.some.injEq]
      rw [c5_pass_events_characterization 729 0 0 contraBoard [] r h]
      decide

/-! ### Claim C2: progress machinery for `simplify` -/

theorem SubB_refl (b : Board) : SubB b b := fun _ h => h

theorem SubB_trans {a b c : Board} (h1 : SubB a b) (h2 : SubB b c) : SubB a c :=
  fun i hi => h2 i (h1 i hi)

theorem HiEq_refl (b : Board) : HiEq b b := fun _ _ => rfl

theorem HiEq_trans {a b c : Board} (h1 : HiEq a b) (h2 : HiEq b c) : HiEq a c :=
  fun i hi => (h1 i hi).trans (h2 i hi)

theorem neq_persist {a b c : Board} (hcb : SubB c b) (hba : SubB b a)
    (hne : b ≠ a) : c ≠ a := by
  have hib : ∃ i, b.testBit i ≠ a.testBit i := by
    by_contra h
    push_neg at h
    exact hne (Nat.eq_of_testBit_eq h)
  obtain ⟨i, hi⟩ := hib
  have hbB : b.testBit i = false := by
    by_contra h
    rw [Bool.not_eq_false] at h
    exact hi (h.trans (hba i h).symm)
  have haB : a.testBit i = true := by
    by_contra h
    rw [Bool.not_eq_true] at h
    rw [hbB, h] at hi
    exact hi rfl
  have hcB : c.testBit i = false := by
    by_contra h
    rw [Bool.not_eq_false] at h
    rw [hcb i h] at hbB
    cases hbB
  intro hca
  rw [hca, haB] at hcB
  cases hcB

theorem Prog_refl (b : Board) (e : Nat) : Prog b e b e := by
  refine ⟨Nat.le_refl e, SubB_refl b, HiEq_refl b, ?_⟩
  constructor
  · intro h
    exact absurd h (Nat.lt_irrefl e)
  · intro h
    exact absurd rfl h

theorem Prog_trans {b0 b1 b2 : Board} {e0 e1 e2 : Nat}
    (h01 : Prog b0 e0 b1 e1) (h12 : Prog b1 e1 b2 e2) : Prog b0 e0 b2 e2 := by
  obtain ⟨hle01, hsub01, hhi01, hiff01⟩ := h01
  obtain ⟨hle12, hsub12, hhi12, hiff12⟩ := h12
  refine ⟨Nat.le_trans hle01 hle12, SubB_trans hsub12 hsub01,
    HiEq_trans hhi12 hhi01, ?_⟩
  constructor
  · intro h02
    by_cases h01lt : e0 < e1
    · exact neq_persist hsub12 hsub01 (hiff01.mp h01lt)
    · have he : e1 = e0 := Nat.le_antisymm (Nat.le_of_not_lt h01lt) hle01
      have hb : b1 = b0 := by
        by_contra hne
        exact h01lt (hiff01.mpr hne)
      rw [← hb]
      exact hiff12.mp (he ▸ h02)
  · intro hne
    by_contra h02
    have he2 : e2 = e0 := Nat.le_antisymm (Nat.le_of_not_lt h02)
      (Nat.le_trans hle01 hle12)
    have he1 : e1 = e0 := Nat.le_antisymm (he2 ▸ hle12) hle01
    have hb1 : b1 = b0 := by
      by_contra hb
      have := hiff01.mpr hb
      omega
    have hb2 : b2 = b1 := by
      by_contra hb
      have := hiff12.mpr hb
      omega
    exact hne (hb2.trans hb1)

/-- Clearing a set flag strictly at bit index `i < 729`. -/
theorem elimPeerStep_prog {σ : Type} (L : SimpListeners σ)
    (c : SimplificationCause) (v bv : Nat) (peer : GPos)
    (acc : Board × Nat × σ) (hx : peer.x < 9) (hy : peer.y < 9) (hv : v ≤ 9) :
    Prog acc.1 acc.2.1 (elimPeerStep L c v bv peer acc).1
      (elimPeerStep L c v bv peer acc).2.1 := by
  unfold elimPeerStep
  by_cases h : isPoss acc.1 peer v = true
  · simp only [h, if_true]
    have hidx : bitIndexAt peer v < 729 := by
      unfold bitIndexAt gpos2bitsetIndex
      have : peer.x + peer.y * 9 ≤ 80 := by omega
      omega
    refine ⟨Nat.le_succ _, ?_, ?_, ?_⟩
    · intro i hi
      rw [testBit_setPoss] at hi
      by_cases hieq : i = bitIndexAt peer v
      · rw [if_pos hieq] at hi
        cases hi
      · rwa [if_neg hieq] at hi
    · intro i hi
      rw [testBit_setPoss]
      have : i ≠ bitIndexAt peer v := by omega
      rw [if_neg this]
    · constructor
      · intro _
        intro heq
        have := congrArg (fun bb => Nat.testBit bb (bitIndexAt peer v)) heq
        simp only at this
        rw [testBit_setPoss, if_pos rfl] at this
        unfold isPoss at h
        rw [h] at this
        cases this
      · intro _
        omega
  · simp only [h, if_false]
    exact Prog_refl _ _

/-- Fold a step that satisfies `Prog` relative to its own input. -/
theorem foldl_prog {σ α : Type} (f : Board × Nat × σ → α → Board × Nat × σ)
    (l : List α)
    (hf : ∀ (acc : Board × Nat × σ) (x : α), x ∈ l →
      Prog acc.1 acc.2.1 (f acc x).1 (f acc x).2.1) :
    ∀ acc : Board × Nat × σ,
      Prog acc.1 acc.2.1 (l.foldl f acc).1 (l.foldl f acc).2.1 := by
  induction l with
  | nil => intro acc; exact Prog_refl _ _
  | cons x xs ih =>
    intro acc
    rw [List.foldl_cons]
    exact Prog_trans (hf acc x (by simp))
      (ih (fun a y hy => hf a y (List.mem_cons_of_mem _ hy)) (f acc x))

theorem nakedElim_prog {σ : Type} (L : SimpListeners σ) (p : GPos) (v0 : Nat)
    (acc : Board × Nat × σ) (hx : p.x < 9) (hy : p.y < 9) (hv : v0 ≤ 9) :
    Prog acc.1 acc.2.1 (nakedElim L p v0 acc).1 (nakedElim L p v0 acc).2.1 := by
  have hrow := foldl_prog
    (fun a cx => if cx = p.x then a
      else elimPeerStep L .eliminationByRow v0 p.y ⟨cx, p.y⟩ a) (List.range 9)
    (by
      intro a cx hcx
      by_cases h : cx = p.x
      · simp only [h, if_true]; exact Prog_refl _ _
      · simp only [h, if_false]
        exact elimPeerStep_prog L _ v0 p.y ⟨cx, p.y⟩ a
          (by simpa using List.mem_range.mp hcx) hy hv)
  have hcol := foldl_prog
    (fun a cy => if cy = p.y then a
      else elimPeerStep L .eliminationByColumn v0 p.x ⟨p.x, cy⟩ a) (List.range 9)
    (by
      intro a cy hcy
      by_cases h : cy = p.y
      · simp only [h, if_true]; exact Prog_refl _ _
      · simp only [h, if_false]
        exact elimPeerStep_prog L _ v0 p.x ⟨p.x, cy⟩ a hx
          (by simpa using List.mem_range.mp hcy) hv)
  have hchunk := foldl_prog
    (fun a q => if q.x = p.x ∧ q.y = p.y then a
      else elimPeerStep L .eliminationByChunk v0 (chunkIdx p) q a) (chunkCells p)
    (by
      intro a q hq
      by_cases h : q.x = p.x ∧ q.y = p.y
      · simp only [h, if_true]; exact Prog_refl _ _
      · simp only [h, if_false]
        obtain ⟨k, hk, rfl⟩ := List.mem_map.mp hq
        have hk9 : k < 9 := List.mem_range.mp hk
        exact elimPeerStep_prog L _ v0 (chunkIdx p) _ a
          (by simp only; omega) (by simp only; omega) hv)
  simp only [nakedElim]
  exact Prog_trans (Prog_trans (hrow acc) (hcol _)) (hchunk _)

theorem SubB_makeSureCore_false (b : Board) (p : GPos) (v : Nat) :
    SubB (makeSureCore b p v false) b := by
  intro i hi
  by_cases h : ∃ w, 1 ≤ w ∧ w ≤ 9 ∧ i = bitIndexAt p w
  · obtain ⟨w, hw1, hw9, rfl⟩ := h
    have hc := isPoss_makeSureCore b p v w false hw1 hw9
    unfold isPoss at hc
    rw [hc] at hi
    by_cases hwv : w = v
    · rw [if_pos hwv] at hi
      subst hwv
      simpa [isPoss] using hi
    · rw [if_neg hwv] at hi
      cases hi
  · push_neg at h
    rwa [testBit_makeSureCore_outside b p v false i h] at hi

theorem HiEq_makeSureCore (b : Board) (p : GPos) (v : Nat) (force : Bool)
    (hx : p.x < 9) (hy : p.y < 9) : HiEq (makeSureCore b p v force) b := by
  intro i hi
  refine testBit_makeSureCore_outside b p v force i ?_
  intro w hw1 hw9 heq
  have := bitIndexAt_lt_729 p hx hy hw1 hw9
  omega

theorem countAt_makeSureCore_le_one (b : Board) (p : GPos) (v : Nat) :
    countAt (makeSureCore b p v false) p ≤ 1 := by
  unfold countAt
  rw [getCellInfoAt_makeSureCore]
  by_cases h : 1 ≤ v ∧ v ≤ 9
  · rw [if_pos h]
    split <;> simp
  · rw [if_neg h]
    simp

theorem countAt_pos_of_isPoss (b : Board) (p : GPos) (v : Nat)
    (hv1 : 1 ≤ v) (hv9 : v ≤ 9) (h : isPoss b p v = true) : 1 ≤ countAt b p := by
  rw [countAt_eq_countP]
  refine List.countP_pos_iff.mpr ?_
  exact ⟨v, List.mem_range'.mpr ⟨v - 1, by omega, by omega⟩, h⟩

theorem isPoss_makeSureCore_self (b : Board) (p : GPos) (v : Nat)
    (hv1 : 1 ≤ v) (hv9 : v ≤ 9) :
    isPoss (makeSureCore b p v false) p v = isPoss b p v := by
  rw [isPoss_makeSureCore b p v v false hv1 hv9]
  simp

theorem cellInfo_foldl_fst_cases (q : Nat → Bool) :
    ∀ (l : List Nat) (a0 n0 : Nat),
      (l.foldl (fun (acc : Nat × Nat) v => if q v then (v, acc.2 + 1) else acc)
        (a0, n0)) = (a0, n0) ∨
      ((l.foldl (fun (acc : Nat × Nat) v => if q v then (v, acc.2 + 1) else acc)
          (a0, n0)).1 ∈ l ∧
        n0 < (l.foldl (fun (acc : Nat × Nat) v => if q v then (v, acc.2 + 1) else acc)
          (a0, n0)).2) := by
  intro l
  induction l with
  | nil => intro a0 n0; exact Or.inl rfl
  | cons a t ih =>
    intro a0 n0
    rw [List.foldl_cons]
    by_cases hq : q a = true
    · simp only [hq, if_true]
      rcases ih a (n0 + 1) with heq | ⟨hmem, hlt⟩
      · right
        rw [heq]
        exact ⟨by simp, by omega⟩
      · exact Or.inr ⟨List.mem_cons_of_mem _ hmem, by omega⟩
    · simp only [hq, Bool.false_eq_true, if_false]
      rcases ih a0 n0 with heq | ⟨hmem, hlt⟩
      · exact Or.inl heq
      · exact Or.inr ⟨List.mem_cons_of_mem _ hmem, hlt⟩

theorem getCellInfoAt_fst_le_9 (b : Board) (p : GPos) :
    (getCellInfoAt b p).1 ≤ 9 := by
  unfold getCellInfoAt
  simp only
  rcases cellInfo_foldl_fst_cases (fun v => isPoss b p v) (List.range' 1 9) 0 0
    with heq | ⟨hmem, _⟩
  · rw [heq]
    simp
  · obtain ⟨i, hi, hv⟩ := List.mem_range'.mp hmem
    split
    · omega
    · omega

theorem hiddenSingleValue_prog {σ : Type} (L : SimpListeners σ) (p : GPos)
    (cnt v : Nat) (B : Board) (E : Nat) (x : Board) (ex : Nat) (s : σ)
    (hx9 : p.x < 9) (hy9 : p.y < 9) (hv1 : 1 ≤ v) (hv9 : v ≤ 9)
    (hcnt : countAt B p = cnt) (h2 : 2 ≤ cnt) (hprog : Prog B E x ex) :
    Prog B E (hiddenSingleValue L p cnt v (x, ex, s)).1
      (hiddenSingleValue L p cnt v (x, ex, s)).2.1 := by
  have hfire : ∀ (y : Board) (ey : Nat), Prog B E y ey →
      Prog B E (makeSureCore y p v false) (ey + (cnt - 1)) := by
    intro y ey hy
    obtain ⟨hle, hsub, hhi, hiff⟩ := hy
    refine ⟨by omega, SubB_trans (SubB_makeSureCore_false y p v) hsub,
      HiEq_trans (HiEq_makeSureCore y p v false hx9 hy9) hhi, ?_⟩
    constructor
    · intro _
      by_cases hyB : y = B
      · subst hyB
        intro heq
        have h1 : countAt (makeSureCore y p v false) p ≤ 1 :=
          countAt_makeSureCore_le_one y p v
        rw [heq, hcnt] at h1
        omega
      · exact neq_persist (SubB_makeSureCore_false y p v) hsub hyB
    · intro _
      omega
  unfold hiddenSingleValue
  by_cases hpv : isPoss x p v = true
  · simp only [hpv, Bool.not_true, Bool.false_eq_true, if_false]
    by_cases hrow :
        ((List.range 9).all fun cx => cx == p.x || !(isPoss x ⟨cx, p.y⟩ v)) = true
    · simp only [hrow, if_true]
      by_cases hcol : ((List.range 9).all fun cy =>
          cy == p.y || !(isPoss (makeSureCore x p v false) ⟨p.x, cy⟩ v)) = true
      · simp only [hcol, if_true]
        by_cases hchunk : ((chunkCells p).all fun q =>
            (q.x == p.x && q.y == p.y) ||
              !(isPoss (makeSureCore (makeSureCore x p v false) p v false) q v)) = true
        · simp only [hchunk, if_true]
          exact hfire _ _ (hfire _ _ (hfire _ _ hprog))
        · rw [Bool.not_eq_true] at hchunk
          simp only [hchunk, Bool.false_eq_true, if_false]
          exact hfire _ _ (hfire _ _ hprog)
      · rw [Bool.not_eq_true] at hcol
        simp only [hcol, Bool.false_eq_true, if_false]
        by_cases hchunk : ((chunkCells p).all fun q =>
            (q.x == p.x && q.y == p.y) ||
              !(isPoss (makeSureCore x p v false) q v)) = true
        · simp only [hchunk, if_true]
          exact hfire _ _ (hfire _ _ hprog)
        · rw [Bool.not_eq_true] at hchunk
          simp only [hchunk, Bool.false_eq_true, if_false]
          exact hfire _ _ hprog
    · rw [Bool.not_eq_true] at hrow
      simp only [hrow, Bool.false_eq_true, if_false]
      by_cases hcol : ((List.range 9).all fun cy =>
          cy == p.y || !(isPoss x ⟨p.x, cy⟩ v)) = true
      · simp only [hcol, if_true]
        by_cases hchunk : ((chunkCells p).all fun q =>
            (q.x == p.x && q.y == p.y) ||
              !(isPoss (makeSureCore x p v false) q v)) = true
        · simp only [hchunk, if_true]
          exact hfire _ _ (hfire _ _ hprog)
        · rw [Bool.not_eq_true] at hchunk
          simp only [hchunk, Bool.false_eq_true, if_false]
          exact hfire _ _ hprog
      · rw [Bool.not_eq_true] at hcol
        simp only [hcol, Bool.false_eq_true, if_false]
        by_cases hchunk : ((chunkCells p).all fun q =>
            (q.x == p.x && q.y == p.y) || !(isPoss x q v)) = true
        · simp only [hchunk, if_true]
          exact hfire _ _ hprog
        · rw [Bool.not_eq_true] at hchunk
          simp only [hchunk, Bool.false_eq_true, if_false]
          exact hprog
  · rw [Bool.not_eq_true] at hpv
    simp only [hpv, Bool.not_false, if_true]
    exact hprog

theorem hiddenFold_prog {σ : Type} (L : SimpListeners σ) (p : GPos) (cnt : Nat)
    (b1 : Board) (e1 : Nat) (s1 : σ) (hx9 : p.x < 9) (hy9 : p.y < 9)
    (hcnt : countAt b1 p = cnt) (h2 : 2 ≤ cnt) :
    Prog b1 e1
      ((List.range' 1 9).foldl (fun a v => hiddenSingleValue L p cnt v a)
        (b1, e1, s1)).1
      ((List.range' 1 9).foldl (fun a v => hiddenSingleValue L p cnt v a)
        (b1, e1, s1)).2.1 := by
  have H : ∀ l : List Nat, (∀ v ∈ l, 1 ≤ v ∧ v ≤ 9) →
      ∀ acc : Board × Nat × σ, Prog b1 e1 acc.1 acc.2.1 →
      Prog b1 e1 (l.foldl (fun a v => hiddenSingleValue L p cnt v a) acc).1
        (l.foldl (fun a v => hiddenSingleValue L p cnt v a) acc).2.1 := by
    intro l
    induction l with
    | nil => intro _ acc h; exact h
    | cons a t ih =>
      intro hl acc hacc
      rw [List.foldl_cons]
      refine ih (fun w hw => hl w (List.mem_cons_of_mem _ hw)) _ ?_
      rcases acc with ⟨xb, xe, xs⟩
      exact hiddenSingleValue_prog L p cnt a b1 e1 xb xe xs hx9 hy9
        (hl a (by simp)).1 (hl a (by simp)).2 hcnt h2 hacc
  exact H (List.range' 1 9) (by decide) (b1, e1, s1) (Prog_refl _ _)

theorem simplifyCell_prog {σ : Type} (L : SimpListeners σ) (p : GPos)
    (b : Board) (e : Nat) (s : σ) (hx9 : p.x < 9) (hy9 : p.y < 9) :
    Prog b e (simplifyCell L p (b, e, s)).1 (simplifyCell L p (b, e, s)).2.1 := by
  simp only [simplifyCell]
  by_cases h0 : (getCellInfoAt b p).2 = 0
  · simp only [h0, if_pos rfl]
    exact Prog_refl b e
  · simp only [h0, if_false]
    rcases hA : (if (getCellInfoAt b p).2 = 1 then
        nakedElim L p (getCellInfoAt b p).1 (b, e, s) else (b, e, s))
      with ⟨b1, e1, s1⟩
    have hprogA : Prog b e b1 e1 := by
      by_cases h1 : (getCellInfoAt b p).2 = 1
      · rw [if_pos h1] at hA
        have := nakedElim_prog L p (getCellInfoAt b p).1 (b, e, s) hx9 hy9
          (getCellInfoAt_fst_le_9 b p)
        rw [hA] at this
        exact this
      · rw [if_neg h1] at hA
        cases hA
        exact Prog_refl _ _
    by_cases h20 : (getCellInfoAt b1 p).2 = 0
    · simp only [h20, if_pos rfl]
      exact hprogA
    · simp only [h20, if_false]
      by_cases h21 : (getCellInfoAt b1 p).2 = 1
      · simp only [h21, if_pos rfl]
        exact hprogA
      · simp only [h21, if_false]
        exact Prog_trans hprogA
          (hiddenFold_prog L p (getCellInfoAt b1 p).2 b1 e1 s1 hx9 hy9 rfl
            (by omega))

theorem allCells_range : ∀ p ∈ allCells, p.x < 9 ∧ p.y < 9 := by
  intro p hp
  obtain ⟨i, hi, rfl⟩ := List.mem_map.mp hp
  have h81 : i < 81 := List.mem_range.mp hi
  exact ⟨by simp only; omega, by simp only; omega⟩

theorem simplifyCells_prog {σ : Type} (L : SimpListeners σ) :
    ∀ cs : List GPos, (∀ p ∈ cs, p.x < 9 ∧ p.y < 9) →
      ∀ (b : Board) (e : Nat) (s : σ),
        Prog b e (simplifyCells L cs (b, e, s)).1
          (simplifyCells L cs (b, e, s)).2.1 := by
  intro cs
  induction cs with
  | nil => intro _ b e s; exact Prog_refl b e
  | cons p rest ih =>
    intro hcs b e s
    simp only [simplifyCells]
    rcases hA : simplifyCell L p (b, e, s) with ⟨b1, e1, ok1, s1⟩
    have hprogA : Prog b e b1 e1 := by
      have := simplifyCell_prog L p b e s (hcs p (by simp)).1 (hcs p (by simp)).2
      rw [hA] at this
      exact this
    by_cases hk : ok1 = true
    · subst hk
      simp only [if_true]
      exact Prog_trans hprogA
        (ih (fun q hq => hcs q (List.mem_cons_of_mem _ hq)) b1 e1 s1)
    · have hkf : ok1 = false := by simpa using hk
      subst hkf
      simp only [Bool.false_eq_true, if_false]
      exact hprogA

theorem simplify_prog {σ : Type} (L : SimpListeners σ) (b : Board) (s : σ) :
    Prog b 0 (simplify L b s).1 (simplify L b s).2.1 :=
  simplifyCells_prog L allCells allCells_range b 0 s

/-! ### Claim C2: an Ok pass leaves the last cell non-empty -/

theorem hiddenSingleValue_keepCount {σ : Type} (L : SimpListeners σ) (p : GPos)
    (cnt v : Nat) (x : Board) (e : Nat) (s : σ)
    (hv1 : 1 ≤ v) (hv9 : v ≤ 9) (hc : 1 ≤ countAt x p) :
    1 ≤ countAt (hiddenSingleValue L p cnt v (x, e, s)).1 p := by
  have hkeep : ∀ y : Board, isPoss y p v = true →
      isPoss (makeSureCore y p v false) p v = true ∧
        1 ≤ countAt (makeSureCore y p v false) p := by
    intro y hy
    have h1 := isPoss_makeSureCore_self y p v hv1 hv9
    rw [hy] at h1
    exact ⟨h1, countAt_pos_of_isPoss _ p v hv1 hv9 h1⟩
  unfold hiddenSingleValue
  by_cases hpv : isPoss x p v = true
  · simp only [hpv, Bool.not_true, Bool.false_eq_true, if_false]
    have k1 := hkeep x hpv
    by_cases hrow :
        ((List.range 9).all fun cx => cx == p.x || !(isPoss x ⟨cx, p.y⟩ v)) = true
    · simp only [hrow, if_true]
      have k2 := hkeep _ k1.1
      by_cases hcol : ((List.range 9).all fun cy =>
          cy == p.y || !(isPoss (makeSureCore x p v false) ⟨p.x, cy⟩ v)) = true
      · simp only [hcol, if_true]
        have k3 := hkeep _ k2.1
        by_cases hchunk : ((chunkCells p).all fun q =>
            (q.x == p.x && q.y == p.y) ||
              !(isPoss (makeSureCore (makeSureCore x p v false) p v false) q v)) = true
        · simp only [hchunk, if_true]
          exact k3.2
        · rw [Bool.not_eq_true] at hchunk
          simp only [hchunk, Bool.false_eq_true, if_false]
          exact k2.2
      · rw [Bool.not_eq_true] at hcol
        simp only [hcol, Bool.false_eq_true, if_false]
        by_cases hchunk : ((chunkCells p).all fun q =>
            (q.x == p.x && q.y == p.y) ||
              !(isPoss (makeSureCore x p v false) q v)) = true
        · simp only [hchunk, if_true]
          exact k2.2
        · rw [Bool.not_eq_true] at hchunk
          simp only [hchunk, Bool.false_eq_true, if_false]
          exact k1.2
    · rw [Bool.not_eq_true] at hrow
      simp only [hrow, Bool.false_eq_true, if_false]
      by_cases hcol : ((List.range 9).all fun cy =>
          cy == p.y || !(isPoss x ⟨p.x, cy⟩ v)) = true
      · simp only [hcol, if_true]
        have k2 := hkeep _ k1.1
        by_cases hchunk : ((chunkCells p).all fun q =>
            (q.x == p.x && q.y == p.y) ||
              !(isPoss (makeSureCore x p v false) q v)) = true
        · simp only [hchunk, if_true]
          exact k2.2
        · rw [Bool.not_eq_true] at hchunk
          simp only [hchunk, Bool.false_eq_true, if_false]
          exact k1.2
      · rw [Bool.not_eq_true] at hcol
        simp only [hcol, Bool.false_eq_true, if_false]
        by_cases hchunk : ((chunkCells p).all fun q =>
            (q.x == p.x && q.y == p.y) || !(isPoss x q v)) = true
        · simp only [hchunk, if_true]
          exact k1.2
        · rw [Bool.not_eq_true] at hchunk
          simp only [hchunk, Bool.false_eq_true, if_false]
          exact hc
  · rw [Bool.not_eq_true] at hpv
    simp only [hpv, Bool.not_false, if_true]
    exact hc

theorem simplifyCell_ok_count {σ : Type} (L : SimpListeners σ) (p : GPos)
    (b : Board) (e : Nat) (s : σ) (b' : Board) (e' : Nat) (s' : σ)
    (h : simplifyCell L p (b, e, s) = (b', e', true, s')) :
    1 ≤ countAt b' p := by
  simp only [simplifyCell] at h
  by_cases h0 : (getCellInfoAt b p).2 = 0
  · rw [if_pos h0] at h
    have := congrArg (fun r => r.2.2.1) h
    simp at this
  · rw [if_neg h0] at h
    rcases hA : (if (getCellInfoAt b p).2 = 1 then
        nakedElim L p (getCellInfoAt b p).1 (b, e, s) else (b, e, s))
      with ⟨b1, e1, s1⟩
    rw [hA] at h
    by_cases h20 : (getCellInfoAt b1 p).2 = 0
    · rw [if_pos h20] at h
      have := congrArg (fun r => r.2.2.1) h
      simp at this
    · rw [if_neg h20] at h
      by_cases h21 : (getCellInfoAt b1 p).2 = 1
      · rw [if_pos h21] at h
        have hb := congrArg (fun r => r.1) h
        simp only at hb
        rw [← hb]
        unfold countAt
        omega
      · rw [if_neg h21] at h
        have hb := congrArg (fun r => r.1) h
        simp only at hb
        rw [← hb]
        have H : ∀ l : List Nat, (∀ v ∈ l, 1 ≤ v ∧ v ≤ 9) →
            ∀ acc : Board × Nat × σ, 1 ≤ countAt acc.1 p →
            1 ≤ countAt
              ((l.foldl (fun a v =>
                hiddenSingleValue L p (getCellInfoAt b1 p).2 v a) acc)).1 p := by
          intro l
          induction l with
          | nil => intro _ acc hacc; exact hacc
          | cons a t ih =>
            intro hl acc hacc
            rw [List.foldl_cons]
            refine ih (fun w hw => hl w (List.mem_cons_of_mem _ hw)) _ ?_
            rcases acc with ⟨xb, xe, xs⟩
            exact hiddenSingleValue_keepCount L p _ a xb xe xs
              (hl a (by simp)).1 (hl a (by simp)).2 hacc
        refine H (List.range' 1 9) (by decide) (b1, e1, s1) ?_
        show 1 ≤ countAt b1 p
        unfold countAt
        omega

theorem simplifyCells_ok_cell {σ : Type} (L : SimpListeners σ) :
    ∀ (cs : List GPos) (q : GPos) (b : Board) (e : Nat) (s : σ)
      (b' : Board) (e' : Nat) (s' : σ),
      cs.getLast? = some q →
      simplifyCells L cs (b, e, s) = (b', e', true, s') →
      1 ≤ countAt b' q := by
  intro cs
  induction cs with
  | nil =>
    intro q b e s b' e' s' hlast _
    cases hlast
  | cons p rest ih =>
    intro q b e s b' e' s' hlast h
    simp only [simplifyCells] at h
    rcases hA : simplifyCell L p (b, e, s) with ⟨b1, e1, ok1, s1⟩
    rw [hA] at h
    by_cases hk : ok1 = true
    · subst hk
      rw [if_pos rfl] at h
      cases rest with
      | nil =>
        obtain rfl : p = q := by simpa using hlast
        have hb : b' = b1 := by
          have := congrArg (fun r => r.1) h
          simpa using this.symm
        rw [hb]
        exact simplifyCell_ok_count L p b e s b1 e1 s1 hA
      | cons r rs =>
        rw [List.getLast?_cons_cons] at hlast
        exact ih q b1 e1 s1 b' e' s' hlast h
    · have hkf : ok1 = false := by simpa using hk
      subst hkf
      rw [if_neg (by simp)] at h
      have := congrArg (fun r => r.2.2.1) h
      simp at this

theorem simplify_ok_flag {σ : Type} (L : SimpListeners σ) (b : Board) (s : σ)
    (h : (simplify L b s).2.2.1 = true) : 1 ≤ flagCount (simplify L b s).1 := by
  rcases hA : simplify L b s with ⟨b', e', ok', s'⟩
  rw [hA] at h
  simp only at h
  subst h
  have hlast : allCells.getLast? = some ⟨8, 8⟩ := by decide
  have hcell : 1 ≤ countAt b' ⟨8, 8⟩ := by
    refine simplifyCells_ok_cell L allCells ⟨8, 8⟩ b 0 s b' e' s' hlast ?_
    exact hA
  have hposs : ∃ v ∈ List.range' 1 9, isPoss b' ⟨8, 8⟩ v := by
    rw [countAt_eq_countP] at hcell
    exact List.countP_pos_iff.mp hcell
  obtain ⟨v, hv, hp⟩ := hposs
  obtain ⟨i, hi, rfl⟩ := List.mem_range'.mp hv
  unfold flagCount
  refine List.countP_pos_iff.mpr ?_
  refine ⟨bitIndexAt ⟨8, 8⟩ (1 + 1 * i), List.mem_range.mpr ?_, hp⟩
  exact bitIndexAt_lt_729 ⟨8, 8⟩ (by decide) (by decide) (by omega) (by omega)

/-! ### Claim C2: strict flag-count decrease and termination -/

theorem countP_lt_of_witness {α : Type} (p q : α → Bool) (l : List α)
    (hpq : ∀ a ∈ l, p a = true → q a = true) (a0 : α) (ha0 : a0 ∈ l)
    (hq : q a0 = true) (hp : p a0 = false) :
    l.countP p < l.countP q := by
  induction l with
  | nil => cases ha0
  | cons x xs ih =>
    rcases List.mem_cons.mp ha0 with rfl | hmem
    · rw [List.countP_cons, List.countP_cons, hq, hp]
      have hmono : xs.countP p ≤ xs.countP q :=
        List.countP_mono_left (fun a ha hpa => hpq a (List.mem_cons_of_mem _ ha) hpa)
      simp
      omega
    · rw [List.countP_cons, List.countP_cons]
      have hrec := ih (fun a ha hpa => hpq a (List.mem_cons_of_mem _ ha) hpa) hmem
      have hx : (if p x = true then 1 else 0) ≤ (if q x = true then 1 else 0) := by
        by_cases hpx : p x = true
        · rw [if_pos hpx, if_pos (hpq x (by simp) hpx)]
        · rw [if_neg hpx]
          omega
      omega

theorem flagCount_lt {b' b : Board} (hsub : SubB b' b) (hhi : HiEq b' b)
    (hne : b' ≠ b) : flagCount b' < flagCount b := by
  have hib : ∃ i, b'.testBit i ≠ b.testBit i := by
    by_contra h
    push_neg at h
    exact hne (Nat.eq_of_testBit_eq h)
  obtain ⟨i, hi⟩ := hib
  have hb' : b'.testBit i = false := by
    by_contra h
    rw [Bool.not_eq_false] at h
    exact hi (h.trans (hsub i h).symm)
  have hb : b.testBit i = true := by
    by_contra h
    rw [Bool.not_eq_true] at h
    rw [hb', h] at hi
    exact hi rfl
  have hilt : i < 729 := by
    by_contra h
    push_neg at h
    rw [hhi i h] at hi
    exact hi rfl
  exact countP_lt_of_witness _ _ (List.range 729)
    (fun a _ ha => hsub a ha) i (List.mem_range.mpr hilt) hb hb'

theorem flagCount_le_729 (b : Board) : flagCount b ≤ 729 := by
  unfold flagCount
  calc (List.range 729).countP (fun i => b.testBit i)
      ≤ (List.range 729).length := List.countP_le_length _
    _ = 729 := by simp

theorem simplifyToTheEnd_term {σ : Type} (L : SimpListeners σ) :
    ∀ (fuel : Nat) (b : Board), max 1 (flagCount b) ≤ fuel →
      ∀ (idx tot : Nat) (s : σ),
        simplifyToTheEndFuel L fuel idx tot b s ≠ none := by
  intro fuel
  induction fuel with
  | zero =>
    intro b hb
    exact absurd hb (by omega)
  | succ fuel ih =>
    intro b hb idx tot s
    rw [simplifyToTheEndFuel]
    rcases hA : simplify L b s with ⟨b1, e1, ok1, s1⟩
    by_cases hk : ok1 = true
    · subst hk
      simp only [Bool.not_true, Bool.false_eq_true, if_false]
      by_cases he0 : e1 = 0
      · simp [he0]
      · simp only [he0, if_false]
        have hprog := simplify_prog L b s
        rw [hA] at hprog
        dsimp only at hprog
        obtain ⟨hle, hsub, hhi, hiff⟩ := hprog
        have hne : b1 ≠ b := hiff.mp (by omega)
        have hlt : flagCount b1 < flagCount b := flagCount_lt hsub hhi hne
        have hge : 1 ≤ flagCount b1 := by
          have h1 := simplify_ok_flag L b s (by rw [hA])
          rw [hA] at h1
          exact h1
        exact ih b1 (by omega) (idx + 1) (tot + e1) (L.onPass idx e1 (tot + e1) s1)
    · have hkf : ok1 = false := by simpa using hk
      subst hkf
      simp

/-- C2: every `simplify()` pass only clears candidate flags (never
turns one on); every Ok pass with a nonzero reported elimination count
strictly decreases the number of set candidate flags, which is bounded
below by 0; and `simplifyToTheEnd` reaches its fixpoint (a pass
eliminating zero candidates) or a Contradiction within a budget of 729
passes — with that budget the loop always returns. -/
theorem c2_simplify_termination {σ : Type} (L : SimpListeners σ) (b : Board)
    (s : σ) :
    SubB (simplify L b s).1 b ∧
    ((simplify L b s).2.2.1 = true → (simplify L b s).2.1 ≠ 0 →
      flagCount (simplify L b s).1 < flagCount b) ∧
    (∀ idx tot : Nat, simplifyToTheEndFuel L 729 idx tot b s ≠ none) := by
  obtain ⟨hle, hsub, hhi, hiff⟩ := simplify_prog L b s
  refine ⟨hsub, ?_, ?_⟩
  · intro _ hne
    exact flagCount_lt hsub hhi (hiff.mp (by omega))
  · intro idx tot
    refine simplifyToTheEnd_term L 729 b ?_ idx tot s
    have := flagCount_le_729 b
    omega

/-- Witness for C2: the first pass after the single clue `(4,4) = 5` is
a productive Ok pass, and its 20 eliminations strictly decrease the
flag count. -/
theorem c2_simplify_termination_witness :
    flagCount (simplify unitSL c9Board ()).1 < flagCount c9Board ∧
    simplifyToTheEndFuel unitSL 729 0 0 c9Board () ≠ none :=
  ⟨(c2_simplify_termination unitSL c9Board ()).2.1 (by decide) (by decide),
    (c2_simplify_termination unitSL c9Board ()).2.2 0 0⟩

end SudokuSolver
